import Mathlib

/-!
A verification development for the gorphanage orphaned-code analyzer.

The Go source is shallowly embedded: the syntax trees handed back by the
loader (`golang.org/x/tools/go/packages`) become an inductive AST carrying,
on every identifier node, the entry of the `TypesInfo.Uses` resolution map
for that node; the analyzer's maps (`symbols`, `references`, `reachable`)
become an association list, an association list of buckets, and a `Finset`
of keys; each Go function of the analyzer becomes a Lean function of the
same name over this state.
-/

namespace Gorphanage

/-- A `token.Position` as produced by the analyzer's file set: file name and
1-based line/column.  Node positions are loader-reported data, so the
embedding stores a start and an end position on every node. -/
structure TokPos where
  filename : String
  line : Nat
  column : Nat
deriving DecidableEq, Repr

/-- The JSON-facing `Position` struct (line/column only). -/
structure Position where
  line : Nat
  column : Nat
deriving DecidableEq, Repr

/-- The dynamic class of a resolved `types.Object`, as distinguished by the
type switch in `getObjectKind` (`*types.Func`, `*types.TypeName`,
`*types.Const`, `*types.Var`, default). -/
inductive ObjClass
  | funcObj
  | typeNameObj
  | constObj
  | varObj
  | otherObj
deriving DecidableEq, Repr

/-- A semantic object from the loader's use-resolution map: its name, the
path of its owning package (`obj.Pkg()` — `none` models a nil package,
i.e. a built-in), and its dynamic class. -/
structure Obj where
  name : String
  pkgPath : Option String
  cls : ObjClass
deriving DecidableEq, Repr

/-- An `*ast.Ident` node.  `use` is the entry of `pkg.TypesInfo.Uses` for
this node (`none` when the map has no entry, e.g. for declaring
occurrences). -/
structure Ident where
  name : String
  pos : TokPos
  endPos : TokPos
  use : Option Obj
deriving DecidableEq, Repr

/-- The expression forms the analyzer's switches dispatch on: bare
identifiers and selector expressions.  All other Go expression nodes are
traversed transparently by `ast.Inspect` and contribute only through the
identifier/selector nodes nested in them, which these two constructors can
already nest. -/
inductive Expr
  | ident (i : Ident)
  | selector (x : Expr) (sel : Ident)
deriving DecidableEq, Repr

/-- An `*ast.TypeSpec` or `*ast.ValueSpec` inside a `*ast.GenDecl`.  The
name fields are optional, mirroring the nilable pointers the Go code
guards against. -/
inductive Spec
  | typeSpec (name : Option Ident) (tyExprs : List Expr) (pos endPos : TokPos)
  | valueSpec (names : List (Option Ident)) (values : List Expr) (pos endPos : TokPos)
deriving DecidableEq, Repr

/-- The declaration token of a `*ast.GenDecl` (`token.VAR`, `token.CONST`,
`token.TYPE`). -/
inductive GoTok
  | tokVar
  | tokConst
  | tokType
deriving DecidableEq, Repr

/-- An `*ast.GenDecl` node. -/
structure GenDecl where
  tok : GoTok
  specs : List Spec
  pos : TokPos
  endPos : TokPos
deriving DecidableEq, Repr

/-- A statement in a function body: the forms that matter to the analyzer
are expression statements (use sites) and declaration statements (a
`*ast.DeclStmt` wrapping a `*ast.GenDecl`). -/
inductive Stmt
  | exprStmt (e : Expr)
  | declStmt (g : GenDecl)
deriving DecidableEq, Repr

/-- An `*ast.FuncDecl` node.  `sigExprs` collects the expression nodes of
the receiver and signature (their identifiers are visited by
`ast.Inspect` like any others). -/
structure FuncDecl where
  name : Option Ident
  sigExprs : List Expr
  body : List Stmt
  pos : TokPos
  endPos : TokPos
deriving DecidableEq, Repr

/-- A top-level declaration of a file. -/
inductive Decl
  | funcDecl (f : FuncDecl)
  | genDecl (g : GenDecl)
deriving DecidableEq, Repr

/-- An `*ast.File`: its list of top-level declarations. -/
structure GoFile where
  decls : List Decl
deriving DecidableEq, Repr

/-- A loaded `*packages.Package`: canonical path, simple name, parsed
syntax trees, the parallel compiled-file list, and the package's error
list. -/
structure Package where
  pkgPath : String
  name : String
  syntaxTrees : List GoFile
  compiledGoFiles : List String
  loadErrors : List String
deriving DecidableEq, Repr

/-- The `Symbol` struct of the analyzer (part_001).  `posn` is the internal
`Position token.Position` field. -/
structure Symbol where
  name : String
  kind : String
  file : String
  startP : Position
  endP : Position
  exported : Bool
  pkg : String
  posn : TokPos
deriving DecidableEq, Repr

/-- A use-site record (`Reference` struct). -/
structure Reference where
  file : String
  position : TokPos
deriving DecidableEq, Repr

/-- The analyzer's `symbols` map, embedded as an association list whose
entries are unique by key (Go map assignment is modelled by
`mapInsert`). -/
abbrev SymTab := List (String × Symbol)

/-- Go map read `a.symbols[k]`. -/
def lookupSym (t : SymTab) (k : String) : Option Symbol :=
  (t.find? (fun p => p.1 == k)).map Prod.snd

/-- Go map assignment `a.symbols[key] = symbol`: last write wins. -/
def mapInsert (t : SymTab) (k : String) (s : Symbol) : SymTab :=
  t.filter (fun p => p.1 != k) ++ [(k, s)]

/-- The analyzer's `references` map (`map[string][]Reference`), embedded
as an association list of buckets. -/
abbrev RefTab := List (String × List Reference)

/-- Go `a.references[key] = append(a.references[key], ref)`. -/
def addReference (t : RefTab) (k : String) (r : Reference) : RefTab :=
  if t.any (fun p => p.1 == k) then
    t.map (fun p => if p.1 == k then (p.1, p.2 ++ [r]) else p)
  else
    t ++ [(k, [r])]

/-- The `Config` struct. -/
structure Config where
  projectPath : String
  outputJSON : Bool
  verbose : Bool
  exclude : List String
  includeTests : Bool
deriving DecidableEq, Repr

/-- The `Analyzer` aggregate. -/
structure Analyzer where
  config : Config
  packages : List Package
  symbols : SymTab
  references : RefTab
  reachable : Finset String
  mainPackages : List Package

/-- The `AnalysisResult` struct. -/
structure AnalysisResult where
  projectPath : String
  totalSymbols : Nat
  reachableSymbols : Nat
  mainPackages : Nat
  orphanedSymbols : List Symbol
  excludedPackages : List String
  includedTests : Bool

/-- `getSymbolKey` (analyzer.go): `fmt.Sprintf("%s.%s.%s", ...)`. -/
def getSymbolKey (pkgPath name kind : String) : String :=
  pkgPath ++ "." ++ name ++ "." ++ kind

/-- `strings.HasPrefix`, modelled at the rune level. -/
def strStartsWith (s pre : String) : Bool :=
  pre.toList.isPrefixOf s.toList

/-- `isTestFunction` (reachability.go). -/
def isTestFunction (name : String) : Bool :=
  strStartsWith name "Test" || strStartsWith name "Benchmark" || strStartsWith name "Example"

/-- `ast.IsExported`: the first character of the name is upper-case.  (Go
tests the first rune with `unicode.IsUpper`; on ASCII names the two
agree.) -/
def isExported (name : String) : Bool :=
  match name.toList with
  | [] => false
  | c :: _ => c.isUpper

/-- `getObjectKind` (part_002): the type switch over the semantic object. -/
def getObjectKind (o : Obj) : String :=
  match o.cls with
  | .funcObj => "function"
  | .typeNameObj => "type"
  | .constObj => "constant"
  | .varObj => "variable"
  | .otherObj => "unknown"

/-- Building the JSON-facing `Position` from a `token.Position`
(`Position{Line: p.Line, Column: p.Column}`). -/
def positionOf (t : TokPos) : Position :=
  { line := t.line, column := t.column }

/-! ## Symbol extraction (symbols.go) -/

/-- `processFunctionDecl`. -/
def processFunctionDecl (pkg : Package) (node : FuncDecl) (filename : String)
    (tab : SymTab) : SymTab :=
  match node.name with
  | none => tab
  | some nm =>
    if nm.name = "_" then tab
    else
      let startPos := node.pos
      let stopPos := node.endPos
      let symbol : Symbol :=
        { name := nm.name
          kind := "function"
          file := filename
          posn := startPos
          startP := positionOf startPos
          endP := positionOf stopPos
          exported := isExported nm.name
          pkg := pkg.pkgPath }
      mapInsert tab (getSymbolKey pkg.pkgPath nm.name "function") symbol

/-- `processTypeSpec`: only `spec.Name`, `spec.Pos()` and `spec.End()` are
read from the spec node, so the embedding passes exactly those. -/
def processTypeSpec (pkg : Package) (specName : Option Ident)
    (specPos specEnd : TokPos) (filename : String) (tab : SymTab) : SymTab :=
  match specName with
  | none => tab
  | some nm =>
    if nm.name = "_" then tab
    else
      let symbol : Symbol :=
        { name := nm.name
          kind := "type"
          file := filename
          posn := specPos
          startP := positionOf specPos
          endP := positionOf specEnd
          exported := isExported nm.name
          pkg := pkg.pkgPath }
      mapInsert tab (getSymbolKey pkg.pkgPath nm.name "type") symbol

/-- The kind string chosen by `processValueSpec`:
`kind := "variable"; if tok == token.CONST { kind = "constant" }`. -/
def valueKind (tok : GoTok) : String :=
  match tok with
  | .tokConst => "constant"
  | _ => "variable"

/-- The loop body of `processValueSpec` for one name of the value spec. -/
def valueSpecStep (pkg : Package) (tok : GoTok) (filename : String)
    (tab : SymTab) (nameOpt : Option Ident) : SymTab :=
  match nameOpt with
  | none => tab
  | some name =>
    if name.name = "_" then tab
    else
      let kind := valueKind tok
      let symbol : Symbol :=
        { name := name.name
          kind := kind
          file := filename
          posn := name.pos
          startP := positionOf name.pos
          endP := positionOf name.endPos
          exported := isExported name.name
          pkg := pkg.pkgPath }
      mapInsert tab (getSymbolKey pkg.pkgPath name.name kind) symbol

/-- `processValueSpec`: only `spec.Names` and the token are read; both the
start and the end position of the recorded symbol come from the name
identifier (`name.Pos()`, `name.End()`). -/
def processValueSpec (pkg : Package) (specNames : List (Option Ident))
    (tok : GoTok) (filename : String) (tab : SymTab) : SymTab :=
  specNames.foldl (valueSpecStep pkg tok filename) tab

/-- The spec dispatch of `processGenDecl`. -/
def specStep (pkg : Package) (tok : GoTok) (filename : String) (tab : SymTab) :
    Spec → SymTab
  | .typeSpec name _ pos stop => processTypeSpec pkg name pos stop filename tab
  | .valueSpec names _ _ _ => processValueSpec pkg names tok filename tab

/-- `processGenDecl`: dispatch over the specs of a general declaration. -/
def processGenDecl (pkg : Package) (node : GenDecl) (filename : String)
    (tab : SymTab) : SymTab :=
  node.specs.foldl (specStep pkg node.tok filename) tab

/-- The `ast.Inspect` of `findSymbolsInFile` restricted to one statement:
the walk descends into function bodies, so a `GenDecl` wrapped in a
`DeclStmt` is visited and processed exactly like a top-level one. -/
def symbolsInStmt (pkg : Package) (filename : String) (tab : SymTab) :
    Stmt → SymTab
  | .exprStmt _ => tab
  | .declStmt g => processGenDecl pkg g filename tab

/-- The declaration dispatch of `findSymbolsInFile`: a function declaration
is processed and then its body is walked; a general declaration is
processed spec by spec. -/
def declStep (pkg : Package) (filename : String) (tab : SymTab) : Decl → SymTab
  | .funcDecl f =>
    f.body.foldl (symbolsInStmt pkg filename) (processFunctionDecl pkg f filename tab)
  | .genDecl g => processGenDecl pkg g filename tab

/-- `findSymbolsInFile`: `ast.Inspect` fires the switch on every
`*ast.FuncDecl` and every `*ast.GenDecl` node of the file — including
`GenDecl` nodes nested inside function bodies. -/
def findSymbolsInFile (pkg : Package) (file : GoFile) (filename : String)
    (tab : SymTab) : SymTab :=
  file.decls.foldl (declStep pkg filename) tab

/-- One aligned (syntax tree, compiled file) pair of a package. -/
def fileStep (pkg : Package) (tab : SymTab) (fl : GoFile × String) : SymTab :=
  findSymbolsInFile pkg fl.1 fl.2 tab

/-- The per-package step of `findSymbols`: `for i, file := range pkg.Syntax
{ if i < len(pkg.CompiledGoFiles) { ... } }` — exactly the pairs produced
by `zip`. -/
def pkgStep (tab : SymTab) (pkg : Package) : SymTab :=
  (pkg.syntaxTrees.zip pkg.compiledGoFiles).foldl (fileStep pkg) tab

/-- `findSymbols`. -/
def findSymbols (pkgs : List Package) : SymTab :=
  pkgs.foldl pkgStep []

/-! ## Reference extraction (part_002) -/

/-- `processIdentReference`: if the use-resolution map has an entry for the
identifier, append a reference under the key derived from the object.
`processSelectorReference` performs the identical computation on
`node.Sel`. -/
def processIdentReference (tab : RefTab) (node : Ident) : RefTab :=
  match node.use with
  | none => tab
  | some obj =>
    let pos := node.pos
    let kind := getObjectKind obj
    let pkgPath := obj.pkgPath.getD ""
    let key := getSymbolKey pkgPath obj.name kind
    addReference tab key { file := pos.filename, position := pos }

/-- The `ast.Inspect` of `findReferencesInFile` over one expression, in
pre-order.  A selector expression is visited first (firing the
`*ast.SelectorExpr` case on `node.Sel`), then its children: the operand,
and then `Sel` itself — which fires the `*ast.Ident` case a second
time. -/
def refsInExpr : RefTab → Expr → RefTab
  | tab, .ident i => processIdentReference tab i
  | tab, .selector x sel =>
    let tab := processIdentReference tab sel
    let tab := refsInExpr tab x
    processIdentReference tab sel

/-- Reference walk over an identifier that may be absent (nilable name
pointers). -/
def refsInOptIdent (tab : RefTab) (i : Option Ident) : RefTab :=
  match i with
  | none => tab
  | some id0 => processIdentReference tab id0

/-- Reference walk over a spec node. -/
def refsInSpec (tab : RefTab) : Spec → RefTab
  | .typeSpec name tyExprs _ _ =>
    (tyExprs.foldl refsInExpr (refsInOptIdent tab name))
  | .valueSpec names values _ _ =>
    values.foldl refsInExpr (names.foldl refsInOptIdent tab)

/-- Reference walk over a general declaration. -/
def refsInGenDecl (tab : RefTab) (g : GenDecl) : RefTab :=
  g.specs.foldl refsInSpec tab

/-- Reference walk over a statement. -/
def refsInStmt : RefTab → Stmt → RefTab
  | tab, .exprStmt e => refsInExpr tab e
  | tab, .declStmt g => refsInGenDecl tab g

/-- Reference walk over a top-level declaration. -/
def refsInDecl : RefTab → Decl → RefTab
  | tab, .funcDecl f =>
    f.body.foldl refsInStmt (f.sigExprs.foldl refsInExpr (refsInOptIdent tab f.name))
  | tab, .genDecl g => refsInGenDecl tab g

/-- `findReferencesInFile`. -/
def findReferencesInFile (tab : RefTab) (file : GoFile) : RefTab :=
  file.decls.foldl refsInDecl tab

/-- `findReferences`. -/
def findReferences (pkgs : List Package) : RefTab :=
  pkgs.foldl (fun tab pkg => pkg.syntaxTrees.foldl findReferencesInFile tab) []

/-! ## Reachability (reachability.go) -/

/-- The contribution of one visited identifier to the key list collected by
the `ast.Inspect` inside `findReferencedSymbols` (before the self-edge
filter). -/
def identUseKey (i : Ident) : List String :=
  match i.use with
  | none => []
  | some obj => [getSymbolKey (obj.pkgPath.getD "") obj.name (getObjectKind obj)]

/-- Keys collected from one expression, in the pre-order of `ast.Inspect`
(the selector's target is collected at the `*ast.SelectorExpr` node and
again when `Sel` is visited as an `*ast.Ident`). -/
def exprUseKeys : Expr → List String
  | .ident i => identUseKey i
  | .selector x sel => identUseKey sel ++ exprUseKeys x ++ identUseKey sel

/-- Keys collected from an optional identifier node. -/
def optIdentUseKey (i : Option Ident) : List String :=
  match i with
  | none => []
  | some id0 => identUseKey id0

/-- Keys collected from a spec node. -/
def specUseKeys : Spec → List String
  | .typeSpec name tyExprs _ _ =>
    optIdentUseKey name ++ tyExprs.foldr (fun e acc => exprUseKeys e ++ acc) []
  | .valueSpec names values _ _ =>
    names.foldr (fun n acc => optIdentUseKey n ++ acc) []
      ++ values.foldr (fun e acc => exprUseKeys e ++ acc) []

/-- Keys collected from a general declaration. -/
def genDeclUseKeys (g : GenDecl) : List String :=
  g.specs.foldr (fun s acc => specUseKeys s ++ acc) []

/-- Keys collected from a statement. -/
def stmtUseKeys : Stmt → List String
  | .exprStmt e => exprUseKeys e
  | .declStmt g => genDeclUseKeys g

/-- Keys collected from a top-level declaration. -/
def declUseKeys : Decl → List String
  | .funcDecl f =>
    optIdentUseKey f.name
      ++ f.sigExprs.foldr (fun e acc => exprUseKeys e ++ acc) []
      ++ f.body.foldr (fun s acc => stmtUseKeys s ++ acc) []
  | .genDecl g => genDeclUseKeys g

/-- All resolved use-site keys of a file, in `ast.Inspect` order. -/
def fileUseKeys (file : GoFile) : List String :=
  file.decls.foldr (fun d acc => declUseKeys d ++ acc) []

/-- The spec cases of `fileContainsSymbol`. -/
def specDeclares (symbol : Symbol) : Spec → Bool
  | .typeSpec name _ _ _ =>
    match name with
    | some n => n.name == symbol.name && symbol.kind == "type"
    | none => false
  | .valueSpec names _ _ _ =>
    names.any fun nameOpt =>
      match nameOpt with
      | some n =>
        n.name == symbol.name && (symbol.kind == "variable" || symbol.kind == "constant")
      | none => false

/-- The `*ast.GenDecl` case of `fileContainsSymbol`. -/
def genDeclDeclares (symbol : Symbol) (g : GenDecl) : Bool :=
  g.specs.any (specDeclares symbol)

/-- `fileContainsSymbol`: the `ast.Inspect` looks for a declaration of the
symbol's name with a matching kind anywhere in the file — the walk also
descends into function bodies, so nested `GenDecl` nodes count. -/
def fileContainsSymbol (file : GoFile) (symbol : Symbol) : Bool :=
  file.decls.any fun d =>
    match d with
    | .funcDecl f =>
      (match f.name with
       | some n => n.name == symbol.name && symbol.kind == "function"
       | none => false)
      || f.body.any fun s =>
          match s with
          | .declStmt g => genDeclDeclares symbol g
          | .exprStmt _ => false
    | .genDecl g => genDeclDeclares symbol g

/-- `findReferencedSymbols`: look up the symbol; collect, over every file of
the symbol's package that contains a matching declaration, every resolved
use-site key other than the symbol's own key.  An unknown key yields the
empty list. -/
def findReferencedSymbols (pkgs : List Package) (tab : SymTab) (symbolKey : String) :
    List String :=
  match lookupSym tab symbolKey with
  | none => []
  | some symbol =>
    let relevantPackages := pkgs.filter (fun pkg => pkg.pkgPath == symbol.pkg)
    relevantPackages.foldr
      (fun pkg acc =>
        pkg.syntaxTrees.foldr
          (fun file acc =>
            (if fileContainsSymbol file symbol then
              (fileUseKeys file).filter (fun refKey => refKey != symbolKey)
            else []) ++ acc)
          acc)
      []

/-- The body of the `for symbolKey, symbol := range a.symbols` loop of
`findEntryPoints`: enqueue and mark an exported symbol of the package
that is not already marked. -/
def expStep (pkg : Package) (st : List String × Finset String)
    (entry : String × Symbol) : List String × Finset String :=
  if entry.2.pkg == pkg.pkgPath && entry.2.exported then
    if entry.1 ∈ st.2 then st
    else (st.1 ++ [entry.1], insert entry.1 st.2)
  else st

/-- The loop body of `findEntryPoints` for one main package: enqueue and
mark `<pkg>.main.Function` and `<pkg>.init.Function` when present in the
symbol table, then enqueue and mark every exported symbol of the
package that is not already marked. -/
def entryPointsForPkg (tab : SymTab) (pkg : Package)
    (acc : List String × Finset String) : List String × Finset String :=
  let queue := acc.1
  let reach := acc.2
  let mainKey := getSymbolKey pkg.pkgPath "main" "function"
  let st1 : List String × Finset String :=
    if (lookupSym tab mainKey).isSome then (queue ++ [mainKey], insert mainKey reach)
    else (queue, reach)
  let initKey := getSymbolKey pkg.pkgPath "init" "function"
  let st2 : List String × Finset String :=
    if (lookupSym tab initKey).isSome then (st1.1 ++ [initKey], insert initKey st1.2)
    else st1
  tab.foldl (expStep pkg) st2

/-- `findEntryPoints`: iterate the loop body over `a.mainPackages`,
starting from an empty queue and the analyzer's current reachable set. -/
def findEntryPoints (tab : SymTab) (mains : List Package) (reach : Finset String) :
    List String × Finset String :=
  mains.foldl (fun acc pkg => entryPointsForPkg tab pkg acc) ([], reach)

/-- The enqueue loop of the BFS: for each referenced key not yet marked
reachable, mark it and append it to the queue. -/
def enqueueNew (acc : List String × Finset String) (targets : List String) :
    List String × Finset String :=
  targets.foldl
    (fun acc refSymbol =>
      if refSymbol ∈ acc.2 then acc
      else (acc.1 ++ [refSymbol], insert refSymbol acc.2))
    acc

/-- The BFS loop of `traceReachability`, with an explicit fuel bound on the
number of iterations (pops).  The fuel supplied by `traceReach` is proved
sufficient for the queue to drain, so the cutoff branch is never the
result of a pipeline run. -/
def bfsLoop (succ : String → List String) :
    Nat → List String → Finset String → Finset String → Finset String
  | 0, _, _, reach => reach
  | _ + 1, [], _, reach => reach
  | fuel + 1, current :: queue, visited, reach =>
    if current ∈ visited then bfsLoop succ fuel queue visited reach
    else
      bfsLoop succ fuel (enqueueNew (queue, reach) (succ current)).1
        (insert current visited) (enqueueNew (queue, reach) (succ current)).2

/-- The union of the successor lists of every key of the symbol table: a
finite superset of every key the BFS can ever enqueue after the roots. -/
def succUnion (succ : String → List String) (tab : SymTab) : Finset String :=
  tab.foldl (fun s entry => s ∪ (succ entry.1).toFinset) ∅

/-- The core of `traceReachability` as a function of the analyzer fields it
reads: entry points, then BFS. -/
def traceReach (pkgs : List Package) (tab : SymTab) (mains : List Package)
    (reach0 : Finset String) : Finset String :=
  bfsLoop (findReferencedSymbols pkgs tab)
    ((findEntryPoints tab mains reach0).1.length
      + (succUnion (findReferencedSymbols pkgs tab) tab).card + 1)
    (findEntryPoints tab mains reach0).1 ∅ (findEntryPoints tab mains reach0).2

/-- `traceReachability`: updates only the `reachable` field, from
`packages`, `symbols`, `mainPackages` and the prior `reachable` — the
reference table is never read. -/
def traceReachability (a : Analyzer) : Analyzer :=
  { a with reachable := traceReach a.packages a.symbols a.mainPackages a.reachable }

/-- `findOrphans`: symbols of the table that are not test-shaped and whose
key is not marked reachable, in table order. -/
def findOrphans (a : Analyzer) : List Symbol :=
  (a.symbols.filter
      (fun entry => !isTestFunction entry.2.name && !decide (entry.1 ∈ a.reachable))).map
    Prod.snd

/-! ## Loader adapter and pipeline (analyzer.go) -/

/-- `strings.Trim(pattern, "*")`. -/
def trimStars (s : String) : String :=
  String.mk (((s.toList.dropWhile (fun c => c == '*')).reverse.dropWhile
    (fun c => c == '*')).reverse)

/-- `strings.Contains`. -/
def containsSubstr (s sub : String) : Bool :=
  decide (List.IsInfix sub.toList s.toList)

/-- `isPackageExcluded`.  `globMatch` abstracts the external
`filepath.Match` collaborator (a failed match reports `false`). -/
def isPackageExcluded (cfg : Config) (globMatch : String → String → Bool)
    (pkgPath : String) : Bool :=
  cfg.exclude.any fun pattern =>
    globMatch pattern pkgPath || containsSubstr pkgPath (trimStars pattern)

/-- `loadProject`: `loaded` is the outcome of the external `packages.Load`
call.  A loader error aborts; otherwise packages with errors and excluded
packages are dropped and the rest are retained — an empty package list is
retained as an empty result, not an error. -/
def loadProject (cfg : Config) (globMatch : String → String → Bool)
    (loaded : Except String (List Package)) : Except String (List Package) :=
  match loaded with
  | .error err => .error ("failed to load packages: " ++ err)
  | .ok pkgs =>
    .ok (pkgs.filter fun pkg =>
      pkg.loadErrors.isEmpty && !isPackageExcluded cfg globMatch pkg.pkgPath)

/-- `identifyMainPackages`: collect the packages named `main`; when there
are none, every package becomes a main package. -/
def identifyMainPackages (a : Analyzer) : Analyzer :=
  let mains := a.packages.filter (fun pkg => pkg.name == "main")
  { a with mainPackages := if mains.isEmpty then a.packages else mains }

/-- `NewAnalyzer`. -/
def newAnalyzer (config : Config) : Analyzer :=
  { config := config
    packages := []
    symbols := []
    references := []
    reachable := ∅
    mainPackages := [] }

/-- The stages of `Analyze` after `loadProject`, on an analyzer that
already holds its loaded packages. -/
def analyzePipeline (a : Analyzer) : AnalysisResult :=
  let a := { a with symbols := findSymbols a.packages }
  let a := { a with references := findReferences a.packages }
  let a := identifyMainPackages a
  let a := traceReachability a
  let orphans := findOrphans a
  { projectPath := a.config.projectPath
    totalSymbols := a.symbols.length
    reachableSymbols := a.reachable.card
    mainPackages := a.mainPackages.length
    orphanedSymbols := orphans
    excludedPackages := a.config.exclude
    includedTests := a.config.includeTests }

/-- `Analyze` on a given loader outcome: load, then run the pipeline. -/
def analyze (cfg : Config) (globMatch : String → String → Bool)
    (loaded : Except String (List Package)) : Except String AnalysisResult :=
  match loadProject cfg globMatch loaded with
  | .error e => .error e
  | .ok pkgs => .ok (analyzePipeline { newAnalyzer cfg with packages := pkgs })

/-! ## Basic lemmas about the embedded maps -/

theorem lookupSym_isSome_iff (t : SymTab) (k : String) :
    (lookupSym t k).isSome ↔ ∃ s, (k, s) ∈ t := by
  unfold lookupSym
  cases hfind : t.find? (fun p => p.1 == k) with
  | none =>
    rw [List.find?_eq_none] at hfind
    simp only [hfind, Option.map_none', Option.isSome_none, Bool.false_eq_true, false_iff]
    rintro ⟨s, hmem⟩
    have := hfind _ hmem
    simp at this
  | some e =>
    have hmem := List.mem_of_find?_eq_some hfind
    have hp := List.find?_some hfind
    simp only [beq_iff_eq] at hp
    simp only [Option.map_some', Option.isSome_some, true_iff]
    refine ⟨e.2, ?_⟩
    rw [← hp]
    simpa using hmem

theorem lookupSym_eq_none_iff (t : SymTab) (k : String) :
    lookupSym t k = none ↔ ∀ s, (k, s) ∉ t := by
  rw [← Option.not_isSome_iff_eq_none, lookupSym_isSome_iff]
  push_neg
  rfl

/-- The effect of one Go map assignment on a subsequent read. -/
theorem lookupSym_mapInsert (t : SymTab) (k : String) (s : Symbol) (k2 : String) :
    lookupSym (mapInsert t k s) k2 = if k2 = k then some s else lookupSym t k2 := by
  unfold lookupSym mapInsert
  induction t with
  | nil =>
    by_cases h : k2 = k
    · subst h
      simp [List.find?]
    · have hne : (k == k2) = false := beq_eq_false_iff_ne.mpr (fun hh => h hh.symm)
      simp [List.find?, hne, h]
  | cons hd tl ih =>
    by_cases hhd : hd.1 = k
    · rw [List.filter_cons_of_neg (by simp [hhd])]
      rw [ih]
      by_cases h : k2 = k
      · simp [h]
      · have hne : (hd.1 == k2) = false := by
          rw [beq_eq_false_iff_ne, hhd]
          exact fun hkk => h hkk.symm
        simp [List.find?, hne, h]
    · rw [List.filter_cons_of_pos (by simp [hhd]), List.cons_append]
      by_cases hk2 : (hd.1 == k2) = true
      · have h : ¬ k2 = k := by
          rw [beq_iff_eq] at hk2
          rw [← hk2]
          exact hhd
        simp [List.find?, hk2, h]
      · rw [Bool.not_eq_true] at hk2
        simp only [List.find?, hk2]
        exact ih

/-- Splitting a list length by a boolean predicate. -/
theorem length_filter_partition {α : Type} (l : List α) (p : α → Bool) :
    (l.filter p).length + (l.filter fun x => !p x).length = l.length := by
  induction l with
  | nil => rfl
  | cons hd tl ih =>
    by_cases h : p hd = true
    · simp [List.filter, h, ← ih]
      omega
    · rw [Bool.not_eq_true] at h
      simp [List.filter, h, ← ih]
      omega

/-! ## Claim C5 -/

/-- Claim C5: the orphan output is exactly the set of symbols whose key is
in the symbol table but not in the reachable set, minus every symbol with
a test-shaped name (`Test`/`Benchmark`/`Example`); in particular no
test-shaped symbol ever appears in the output. -/
theorem c5_orphans_characterization (a : Analyzer) (s : Symbol) :
    s ∈ findOrphans a ↔
      (∃ k, (k, s) ∈ a.symbols ∧ k ∉ a.reachable) ∧ ¬ isTestFunction s.name := by
  unfold findOrphans
  rw [List.mem_map]
  constructor
  · rintro ⟨⟨k, s0⟩, hmem, hsnd⟩
    rw [List.mem_filter] at hmem
    obtain ⟨hmem, hpred⟩ := hmem
    simp only at hsnd
    subst hsnd
    simp only [Bool.and_eq_true, Bool.not_eq_true', decide_eq_false_iff_not] at hpred
    exact ⟨⟨k, hmem, hpred.2⟩, by simp [hpred.1]⟩
  · rintro ⟨⟨k, hmem, hreach⟩, htest⟩
    refine ⟨(k, s), ?_, rfl⟩
    rw [List.mem_filter]
    refine ⟨hmem, ?_⟩
    simp only [Bool.and_eq_true, Bool.not_eq_true', decide_eq_false_iff_not]
    exact ⟨by simpa using htest, hreach⟩

/-! ## Counting lemmas and Claim C2 -/

theorem filter_filter_bool {α : Type} (l : List α) (p q : α → Bool) :
    (l.filter p).filter q = l.filter fun x => q x && p x := by
  induction l with
  | nil => rfl
  | cons hd tl ih =>
    by_cases hp : p hd = true
    · by_cases hq : q hd = true
      · simp [List.filter_cons, hp, hq, ih]
      · rw [Bool.not_eq_true] at hq
        simp [List.filter_cons, hp, hq, ih]
    · rw [Bool.not_eq_true] at hp
      simp [List.filter_cons, hp, ih]

/-- A one-package example project: package `p`, named `main`, whose single
file declares `main` whose body references the external symbol
`fmt.Println` (resolved by the loader to an object outside the scanned
packages). -/
def cpos : TokPos := ⟨"a.go", 1, 1⟩

/-- A trivial configuration for the examples. -/
def exCfg : Config := ⟨"", false, false, [], false⟩

/-- The declaring occurrence of `main` (no `Uses` entry). -/
def mainIdent : Ident := { name := "main", pos := cpos, endPos := cpos, use := none }

/-- A use site resolved to the external function `fmt.Println`. -/
def printlnIdent : Ident :=
  { name := "Println", pos := cpos, endPos := cpos,
    use := some { name := "Println", pkgPath := some "fmt", cls := .funcObj } }

/-- `func main() { Println(...) }`. -/
def mainFunc : FuncDecl :=
  { name := some mainIdent, sigExprs := [],
    body := [.exprStmt (.ident printlnIdent)], pos := cpos, endPos := cpos }

/-- The single file of the example package. -/
def exFile : GoFile := { decls := [.funcDecl mainFunc] }

/-- The example package. -/
def exPkg : Package :=
  { pkgPath := "p", name := "main", syntaxTrees := [exFile],
    compiledGoFiles := ["a.go"], loadErrors := [] }

/-- An analyzer freshly loaded with the example package. -/
def exA : Analyzer := { newAnalyzer exCfg with packages := [exPkg] }

/-- Claim C2 counterexample: on the example project the report has
`total_symbols = 1` (only `p.main.function`), but the BFS also marks the
external key `fmt.Println.function` reachable, so `reachable_symbols = 2`
and `reachable_symbols + orphan_count = 2 > 1 = total_symbols`, although
no symbol has a test-shaped name. -/
theorem c2_counterexample :
    ¬ ((analyzePipeline exA).reachableSymbols
        + (analyzePipeline exA).orphanedSymbols.length
        ≤ (analyzePipeline exA).totalSymbols) := by
  decide

/-- Claim C2 (amended): the reported `reachable_symbols` counts every key
ever marked reachable, including keys absent from the symbol table
(external library symbols marked by the BFS), so it can exceed
`total_symbols`.  Counting instead the symbol-table entries whose key is
marked reachable, the report equivalence holds: that count plus the
orphan count after the test-name filter is at most `total_symbols`, with
equality whenever no symbol of the table has a name beginning with
`Test`, `Benchmark`, or `Example`. -/
theorem c2_report_equivalence_amended (a : Analyzer) :
    (a.symbols.filter fun e => decide (e.1 ∈ a.reachable)).length
        + (findOrphans a).length ≤ a.symbols.length ∧
      ((∀ e ∈ a.symbols, isTestFunction e.2.name = false) →
        (a.symbols.filter fun e => decide (e.1 ∈ a.reachable)).length
            + (findOrphans a).length = a.symbols.length) := by
  have hor : (findOrphans a).length
      = (a.symbols.filter fun e =>
          !isTestFunction e.2.name && !decide (e.1 ∈ a.reachable)).length := by
    unfold findOrphans
    rw [List.length_map]
  have h1 := length_filter_partition a.symbols fun e => decide (e.1 ∈ a.reachable)
  have h2 := length_filter_partition
    (a.symbols.filter fun e => !decide (e.1 ∈ a.reachable))
    (fun e => isTestFunction e.2.name)
  rw [filter_filter_bool a.symbols
      (fun e => !decide (e.1 ∈ a.reachable)) (fun e => isTestFunction e.2.name)] at h2
  rw [show (fun x : String × Symbol => !(fun e : String × Symbol =>
        isTestFunction e.2.name) x)
      = fun x : String × Symbol => !isTestFunction x.2.name from rfl] at h2
  rw [filter_filter_bool a.symbols
      (fun e => !decide (e.1 ∈ a.reachable)) (fun e => !isTestFunction e.2.name)] at h2
  constructor
  · rw [hor]
    omega
  · intro htest
    have hzero : (a.symbols.filter fun e =>
        isTestFunction e.2.name && !decide (e.1 ∈ a.reachable)) = [] := by
      rw [List.filter_eq_nil_iff]
      intro e he
      rw [htest e he]
      simp
    rw [hzero] at h2
    rw [hor]
    simp only [List.length_nil] at h2
    omega

/-- Claim C2 witness: the amended report equivalence, evaluated on the
example analyzer after its pipeline run (the table holds one symbol, it
is reachable, there are no orphans). -/
theorem c2_witness :
    (let a := traceReachability
      (identifyMainPackages { exA with symbols := findSymbols [exPkg] });
    (a.symbols.filter fun e => decide (e.1 ∈ a.reachable)).length
        + (findOrphans a).length = a.symbols.length) := by
  exact (c2_report_equivalence_amended _).2 (by decide)

/-! ## Entry-point lemmas -/

/-- The root condition realized by `findEntryPoints` for one main package:
the package's `main`/`init` function key when present in the table, and
every exported symbol of the package. -/
def rootSpec (tab : SymTab) (pkg : Package) (k : String) : Prop :=
  (k = getSymbolKey pkg.pkgPath "main" "function" ∧ (lookupSym tab k).isSome) ∨
    (k = getSymbolKey pkg.pkgPath "init" "function" ∧ (lookupSym tab k).isSome) ∨
    ∃ e ∈ tab, e.1 = k ∧ e.2.pkg = pkg.pkgPath ∧ e.2.exported = true

theorem expFold_snd_mem (tab : SymTab) (pkg : Package) (k : String) :
    ∀ st : List String × Finset String,
      k ∈ (tab.foldl (expStep pkg) st).2 ↔
        k ∈ st.2 ∨ ∃ e ∈ tab, e.1 = k ∧ e.2.pkg = pkg.pkgPath ∧ e.2.exported = true := by
  induction tab with
  | nil => simp
  | cons hd tl ih =>
    intro st
    rw [List.foldl_cons]
    by_cases hcond : (hd.2.pkg == pkg.pkgPath && hd.2.exported) = true
    · simp only [Bool.and_eq_true, beq_iff_eq] at hcond
      by_cases hmem : hd.1 ∈ st.2
      · rw [show expStep pkg st hd = st by
          unfold expStep
          simp [hcond.1, hcond.2, hmem]]
        rw [ih st]
        constructor
        · rintro (h | ⟨e, he, hek, hp, hx⟩)
          · exact Or.inl h
          · exact Or.inr ⟨e, List.mem_cons_of_mem _ he, hek, hp, hx⟩
        · rintro (h | ⟨e, he, hek, hp, hx⟩)
          · exact Or.inl h
          · rcases List.mem_cons.mp he with he | he
            · subst he
              subst hek
              exact Or.inl hmem
            · exact Or.inr ⟨e, he, hek, hp, hx⟩
      · rw [show expStep pkg st hd = (st.1 ++ [hd.1], insert hd.1 st.2) by
          unfold expStep
          simp [hcond.1, hcond.2, hmem]]
        rw [ih _]
        simp only [Finset.mem_insert]
        constructor
        · rintro ((h | h) | ⟨e, he, hek, hp, hx⟩)
          · exact Or.inr ⟨hd, List.mem_cons_self _ _, h.symm, hcond.1, hcond.2⟩
          · exact Or.inl h
          · exact Or.inr ⟨e, List.mem_cons_of_mem _ he, hek, hp, hx⟩
        · rintro (h | ⟨e, he, hek, hp, hx⟩)
          · exact Or.inl (Or.inr h)
          · rcases List.mem_cons.mp he with he | he
            · subst he
              exact Or.inl (Or.inl hek.symm)
            · exact Or.inr ⟨e, he, hek, hp, hx⟩
    · have hcondf : (hd.2.pkg == pkg.pkgPath && hd.2.exported) = false := by
        rwa [Bool.not_eq_true] at hcond
      rw [show expStep pkg st hd = st by
        unfold expStep
        rw [hcondf]
        simp]
      rw [ih st]
      simp only [Bool.and_eq_true, beq_iff_eq, not_and] at hcond
      constructor
      · rintro (h | ⟨e, he, hek, hp, hx⟩)
        · exact Or.inl h
        · exact Or.inr ⟨e, List.mem_cons_of_mem _ he, hek, hp, hx⟩
      · rintro (h | ⟨e, he, hek, hp, hx⟩)
        · exact Or.inl h
        · rcases List.mem_cons.mp he with he | he
          · subst he
            exact absurd hx (by simpa using hcond hp)
          · exact Or.inr ⟨e, he, hek, hp, hx⟩

/-- Membership in the reachable component of a conditional mark-and-enqueue
step. -/
theorem condMark_snd_mem (b : Bool) (key : String) (st : List String × Finset String)
    (k : String) :
    k ∈ (if b = true then (st.1 ++ [key], insert key st.2) else st).2 ↔
      (b = true ∧ k = key) ∨ k ∈ st.2 := by
  cases b
  · simp
  · simp [Finset.mem_insert]

theorem entryPointsForPkg_snd_mem (tab : SymTab) (pkg : Package) (k : String)
    (st : List String × Finset String) :
    k ∈ (entryPointsForPkg tab pkg st).2 ↔ k ∈ st.2 ∨ rootSpec tab pkg k := by
  unfold entryPointsForPkg rootSpec
  rw [expFold_snd_mem]
  rw [condMark_snd_mem]
  rw [condMark_snd_mem]
  constructor
  · rintro ((⟨hb, hk⟩ | ⟨hb, hk⟩ | h) | h)
    · subst hk
      exact Or.inr (Or.inr (Or.inl ⟨rfl, hb⟩))
    · subst hk
      exact Or.inr (Or.inl ⟨rfl, hb⟩)
    · exact Or.inl h
    · exact Or.inr (Or.inr (Or.inr h))
  · rintro (h | ⟨hk, hb⟩ | ⟨hk, hb⟩ | h)
    · exact Or.inl (Or.inr (Or.inr h))
    · subst hk
      exact Or.inl (Or.inr (Or.inl ⟨hb, rfl⟩))
    · subst hk
      exact Or.inl (Or.inl ⟨hb, rfl⟩)
    · exact Or.inr h

theorem findEntryPoints_fold_snd_mem (tab : SymTab) (mains : List Package) (k : String) :
    ∀ st : List String × Finset String,
      k ∈ (mains.foldl (fun acc pkg => entryPointsForPkg tab pkg acc) st).2 ↔
        k ∈ st.2 ∨ ∃ pkg ∈ mains, rootSpec tab pkg k := by
  induction mains with
  | nil => simp
  | cons hd tl ih =>
    intro st
    rw [List.foldl_cons, ih, entryPointsForPkg_snd_mem]
    constructor
    · rintro ((h | h) | ⟨pkg, hpkg, h⟩)
      · exact Or.inl h
      · exact Or.inr ⟨hd, List.mem_cons_self _ _, h⟩
      · exact Or.inr ⟨pkg, List.mem_cons_of_mem _ hpkg, h⟩
    · rintro (h | ⟨pkg, hpkg, h⟩)
      · exact Or.inl (Or.inl h)
      · rcases List.mem_cons.mp hpkg with hp | hp
        · subst hp
          exact Or.inl (Or.inr h)
        · exact Or.inr ⟨pkg, hp, h⟩

theorem findEntryPoints_snd_mem (tab : SymTab) (mains : List Package)
    (reach : Finset String) (k : String) :
    k ∈ (findEntryPoints tab mains reach).2 ↔
      k ∈ reach ∨ ∃ pkg ∈ mains, rootSpec tab pkg k := by
  unfold findEntryPoints
  exact findEntryPoints_fold_snd_mem tab mains k ([], reach)

/-! ## BFS lemmas -/

theorem enqueueNew_cons (q : List String) (r : Finset String) (t : String)
    (ts : List String) :
    enqueueNew (q, r) (t :: ts) =
      if t ∈ r then enqueueNew (q, r) ts else enqueueNew (q ++ [t], insert t r) ts := by
  unfold enqueueNew
  rw [List.foldl_cons]
  by_cases h : t ∈ r
  · rw [if_pos h, if_pos (show t ∈ (q, r).2 from h)]
  · rw [if_neg h, if_neg (show t ∉ (q, r).2 from h)]

theorem enqueueNew_snd_mem (k : String) :
    ∀ (ts q : List String) (r : Finset String),
      k ∈ (enqueueNew (q, r) ts).2 ↔ k ∈ r ∨ k ∈ ts := by
  intro ts
  induction ts with
  | nil =>
    intro q r
    simp [enqueueNew]
  | cons t ts ih =>
    intro q r
    rw [enqueueNew_cons]
    by_cases h : t ∈ r
    · rw [if_pos h, ih q r]
      simp only [List.mem_cons]
      constructor
      · rintro (hr | hts)
        · exact Or.inl hr
        · exact Or.inr (Or.inr hts)
      · rintro (hr | rfl | hts)
        · exact Or.inl hr
        · exact Or.inl h
        · exact Or.inr hts
    · rw [if_neg h, ih (q ++ [t]) (insert t r)]
      simp only [Finset.mem_insert, List.mem_cons]
      tauto

theorem enqueueNew_fst_mem (k : String) :
    ∀ (ts q : List String) (r : Finset String),
      k ∈ (enqueueNew (q, r) ts).1 ↔ k ∈ q ∨ (k ∈ ts ∧ k ∉ r) := by
  intro ts
  induction ts with
  | nil =>
    intro q r
    simp [enqueueNew]
  | cons t ts ih =>
    intro q r
    rw [enqueueNew_cons]
    by_cases h : t ∈ r
    · rw [if_pos h, ih q r]
      simp only [List.mem_cons]
      constructor
      · rintro (hq | ⟨hts, hr⟩)
        · exact Or.inl hq
        · exact Or.inr ⟨Or.inr hts, hr⟩
      · rintro (hq | ⟨rfl | hts, hr⟩)
        · exact Or.inl hq
        · exact absurd h hr
        · exact Or.inr ⟨hts, hr⟩
    · rw [if_neg h, ih (q ++ [t]) (insert t r)]
      simp only [List.mem_append, List.mem_singleton, List.mem_cons, Finset.mem_insert]
      by_cases hk : k = t
      · subst hk
        simp [h]
      · simp only [hk, false_or, or_false]
        tauto

theorem enqueueNew_measure (U : Finset String) :
    ∀ (ts q : List String) (r : Finset String), (∀ x ∈ ts, x ∈ U) →
      (enqueueNew (q, r) ts).1.length + (U \ (enqueueNew (q, r) ts).2).card
        ≤ q.length + (U \ r).card := by
  intro ts
  induction ts with
  | nil =>
    intro q r _
    simp [enqueueNew]
  | cons t ts ih =>
    intro q r hU
    rw [enqueueNew_cons]
    by_cases h : t ∈ r
    · rw [if_pos h]
      exact ih q r (fun x hx => hU x (List.mem_cons_of_mem _ hx))
    · rw [if_neg h]
      have hstep := ih (q ++ [t]) (insert t r)
        (fun x hx => hU x (List.mem_cons_of_mem _ hx))
      have htU : t ∈ U \ r := Finset.mem_sdiff.mpr ⟨hU t (List.mem_cons_self _ _), h⟩
      have hcard : (U \ insert t r).card = (U \ r).card - 1 := by
        rw [Finset.sdiff_insert]
        exact Finset.card_erase_of_mem htU
      have hpos : 0 < (U \ r).card := Finset.card_pos.mpr ⟨t, htU⟩
      rw [List.length_append, List.length_singleton] at hstep
      omega

theorem bfs_mono (succ : String → List String) :
    ∀ (fuel : Nat) (q : List String) (v r : Finset String) (k : String),
      k ∈ r → k ∈ bfsLoop succ fuel q v r := by
  intro fuel
  induction fuel with
  | zero =>
    intro q v r k hk
    simpa [bfsLoop] using hk
  | succ n ih =>
    intro q v r k hk
    cases q with
    | nil => simpa [bfsLoop] using hk
    | cons current queue =>
      simp only [bfsLoop]
      by_cases hv : current ∈ v
      · rw [if_pos hv]
        exact ih queue v r k hk
      · rw [if_neg hv]
        apply ih
        rw [enqueueNew_snd_mem]
        exact Or.inl hk

theorem bfs_sound (succ : String → List String) (P : String → Prop)
    (hP : ∀ x, P x → ∀ t ∈ succ x, P t) :
    ∀ (fuel : Nat) (q : List String) (v r : Finset String),
      (∀ x ∈ q, P x) → (∀ x ∈ r, P x) →
      ∀ k ∈ bfsLoop succ fuel q v r, P k := by
  intro fuel
  induction fuel with
  | zero =>
    intro q v r _ hr k hk
    exact hr k (by simpa [bfsLoop] using hk)
  | succ n ih =>
    intro q v r hq hr k hk
    cases q with
    | nil => exact hr k (by simpa [bfsLoop] using hk)
    | cons current queue =>
      simp only [bfsLoop] at hk
      by_cases hv : current ∈ v
      · rw [if_pos hv] at hk
        exact ih queue v r (fun x hx => hq x (List.mem_cons_of_mem _ hx)) hr k hk
      · rw [if_neg hv] at hk
        have hcur : P current := hq current (List.mem_cons_self _ _)
        refine ih _ _ _ ?_ ?_ k hk
        · intro x hx
          rw [enqueueNew_fst_mem] at hx
          rcases hx with hx | ⟨hx, _⟩
          · exact hq x (List.mem_cons_of_mem _ hx)
          · exact hP current hcur x hx
        · intro x hx
          rw [enqueueNew_snd_mem] at hx
          rcases hx with hx | hx
          · exact hr x hx
          · exact hP current hcur x hx

theorem bfs_complete (succ : String → List String) (U : Finset String)
    (hU : ∀ x, ∀ t ∈ succ x, t ∈ U) :
    ∀ (fuel : Nat) (q : List String) (v r : Finset String),
      q.length + (U \ r).card < fuel →
      (∀ x ∈ r, x ∈ v ∨ x ∈ q) →
      (∀ x ∈ v, ∀ t ∈ succ x, t ∈ r) →
      ∀ x ∈ bfsLoop succ fuel q v r, ∀ t ∈ succ x, t ∈ bfsLoop succ fuel q v r := by
  intro fuel
  induction fuel with
  | zero =>
    intro q v r hfuel
    omega
  | succ n ih =>
    intro q v r hfuel hJ hK
    cases q with
    | nil =>
      intro x hx t ht
      simp only [bfsLoop] at hx ⊢
      have hxv : x ∈ v := by
        rcases hJ x hx with h | h
        · exact h
        · exact absurd h (List.not_mem_nil x)
      exact hK x hxv t ht
    | cons current queue =>
      simp only [bfsLoop]
      by_cases hv : current ∈ v
      · rw [if_pos hv]
        refine ih queue v r ?_ ?_ hK
        · simp only [List.length_cons] at hfuel
          omega
        · intro x hx
          rcases hJ x hx with h | h
          · exact Or.inl h
          · rcases List.mem_cons.mp h with h | h
            · subst h
              exact Or.inl hv
            · exact Or.inr h
      · rw [if_neg hv]
        have hmeas := enqueueNew_measure U (succ current) queue r (hU current)
        refine ih _ _ _ ?_ ?_ ?_
        · simp only [List.length_cons] at hfuel
          omega
        · intro x hx
          rw [enqueueNew_snd_mem] at hx
          rcases hx with hx | hx
          · rcases hJ x hx with h | h
            · exact Or.inl (Finset.mem_insert_of_mem h)
            · rcases List.mem_cons.mp h with h | h
              · subst h
                exact Or.inl (Finset.mem_insert_self _ _)
              · refine Or.inr ?_
                rw [enqueueNew_fst_mem]
                exact Or.inl h
          · by_cases hxr : x ∈ r
            · rcases hJ x hxr with h | h
              · exact Or.inl (Finset.mem_insert_of_mem h)
              · rcases List.mem_cons.mp h with h | h
                · subst h
                  exact Or.inl (Finset.mem_insert_self _ _)
                · refine Or.inr ?_
                  rw [enqueueNew_fst_mem]
                  exact Or.inl h
            · refine Or.inr ?_
              rw [enqueueNew_fst_mem]
              exact Or.inr ⟨hx, hxr⟩
        · intro x hx t ht
          rcases Finset.mem_insert.mp hx with h | h
          · subst h
            rw [enqueueNew_snd_mem]
            exact Or.inr ht
          · rw [enqueueNew_snd_mem]
            exact Or.inl (hK x h t ht)

/-- The BFS result, from a state where the queue and the reachable set hold
the same keys and nothing is visited, is exactly the reflexive-transitive
closure of the successor relation from the initial reachable set —
independently of the order in which the initial keys are listed. -/
theorem bfs_closure_mem (succ : String → List String) (U : Finset String)
    (hU : ∀ x, ∀ t ∈ succ x, t ∈ U) (q0 : List String) (r0 : Finset String)
    (hqr : ∀ x, x ∈ q0 ↔ x ∈ r0) (fuel : Nat)
    (hfuel : q0.length + (U \ r0).card < fuel) (k : String) :
    k ∈ bfsLoop succ fuel q0 ∅ r0 ↔
      ∃ rt ∈ r0, Relation.ReflTransGen (fun a b => b ∈ succ a) rt k := by
  constructor
  · intro hk
    refine bfs_sound succ (fun x => ∃ rt ∈ r0, Relation.ReflTransGen
        (fun a b => b ∈ succ a) rt x) ?_ fuel q0 ∅ r0 ?_ ?_ k hk
    · rintro x ⟨rt, hrt, hpath⟩ t ht
      exact ⟨rt, hrt, hpath.tail ht⟩
    · intro x hx
      exact ⟨x, (hqr x).mp hx, Relation.ReflTransGen.refl⟩
    · intro x hx
      exact ⟨x, hx, Relation.ReflTransGen.refl⟩
  · rintro ⟨rt, hrt, hpath⟩
    have hclosed := bfs_complete succ U hU fuel q0 ∅ r0 hfuel
      (fun x hx => Or.inr ((hqr x).mpr hx)) (by simp)
    induction hpath with
    | refl => exact bfs_mono succ fuel q0 ∅ r0 rt hrt
    | tail hab hbc ih => exact hclosed _ ih _ hbc

/-! ## Characterizing the traced reachable set -/

theorem findReferencedSymbols_of_none (pkgs : List Package) (tab : SymTab) (k : String)
    (h : lookupSym tab k = none) : findReferencedSymbols pkgs tab k = [] := by
  unfold findReferencedSymbols
  rw [h]

theorem succUnion_fold_init (succ : String → List String) :
    ∀ (tab : SymTab) (init : Finset String) (x : String), x ∈ init →
      x ∈ tab.foldl (fun s entry => s ∪ (succ entry.1).toFinset) init := by
  intro tab
  induction tab with
  | nil =>
    intro init x hx
    simpa using hx
  | cons hd tl ih =>
    intro init x hx
    rw [List.foldl_cons]
    exact ih _ x (Finset.mem_union_left _ hx)

theorem succUnion_mem (succ : String → List String) :
    ∀ (tab : SymTab) (e : String × Symbol), e ∈ tab →
      ∀ t ∈ succ e.1, t ∈ succUnion succ tab := by
  unfold succUnion
  suffices h : ∀ (tab : SymTab) (init : Finset String) (e : String × Symbol), e ∈ tab →
      ∀ t ∈ succ e.1, t ∈ tab.foldl (fun s entry => s ∪ (succ entry.1).toFinset) init by
    intro tab e he t ht
    exact h tab ∅ e he t ht
  intro tab
  induction tab with
  | nil =>
    intro init e he
    exact absurd he (List.not_mem_nil e)
  | cons hd tl ih =>
    intro init e he t ht
    rw [List.foldl_cons]
    rcases List.mem_cons.mp he with he | he
    · subst he
      exact succUnion_fold_init succ tl _ t
        (Finset.mem_union_right _ (List.mem_toFinset.mpr ht))
    · exact ih _ e he t ht

theorem succ_mem_succUnion (pkgs : List Package) (tab : SymTab) (x t : String)
    (ht : t ∈ findReferencedSymbols pkgs tab x) :
    t ∈ succUnion (findReferencedSymbols pkgs tab) tab := by
  cases hlk : lookupSym tab x with
  | none =>
    rw [findReferencedSymbols_of_none pkgs tab x hlk] at ht
    exact absurd ht (List.not_mem_nil t)
  | some s =>
    have hsome : (lookupSym tab x).isSome := by
      rw [hlk]
      rfl
    obtain ⟨sym, hmem⟩ := (lookupSym_isSome_iff tab x).mp hsome
    exact succUnion_mem (findReferencedSymbols pkgs tab) tab (x, sym) hmem t ht

theorem expStep_pres_iff (pkg : Package) (e : String × Symbol)
    (st : List String × Finset String) (h : ∀ x, x ∈ st.1 ↔ x ∈ st.2) :
    ∀ x, x ∈ (expStep pkg st e).1 ↔ x ∈ (expStep pkg st e).2 := by
  unfold expStep
  by_cases hc : (e.2.pkg == pkg.pkgPath && e.2.exported) = true
  · rw [if_pos hc]
    by_cases hm : e.1 ∈ st.2
    · rw [if_pos hm]
      exact h
    · rw [if_neg hm]
      intro x
      simp only [List.mem_append, List.mem_singleton, Finset.mem_insert]
      constructor
      · rintro (hx | rfl)
        · exact Or.inr ((h x).mp hx)
        · exact Or.inl rfl
      · rintro (rfl | hx)
        · exact Or.inr rfl
        · exact Or.inl ((h x).mpr hx)
  · rw [if_neg hc]
    exact h

theorem expFold_pres_iff (pkg : Package) :
    ∀ (tab : SymTab) (st : List String × Finset String),
      (∀ x, x ∈ st.1 ↔ x ∈ st.2) →
      ∀ x, x ∈ (tab.foldl (expStep pkg) st).1 ↔ x ∈ (tab.foldl (expStep pkg) st).2 := by
  intro tab
  induction tab with
  | nil =>
    intro st h
    exact h
  | cons hd tl ih =>
    intro st h
    rw [List.foldl_cons]
    exact ih _ (expStep_pres_iff pkg hd st h)

theorem condMark_pres_iff (b : Bool) (key : String) (st : List String × Finset String)
    (h : ∀ x, x ∈ st.1 ↔ x ∈ st.2) :
    ∀ x, x ∈ (if b = true then (st.1 ++ [key], insert key st.2) else st).1 ↔
      x ∈ (if b = true then (st.1 ++ [key], insert key st.2) else st).2 := by
  by_cases hb : b = true
  · rw [if_pos hb]
    intro x
    simp only [List.mem_append, List.mem_singleton, Finset.mem_insert]
    constructor
    · rintro (hx | rfl)
      · exact Or.inr ((h x).mp hx)
      · exact Or.inl rfl
    · rintro (rfl | hx)
      · exact Or.inr rfl
      · exact Or.inl ((h x).mpr hx)
  · rw [if_neg hb]
    exact h

theorem entryPointsForPkg_pres_iff (tab : SymTab) (pkg : Package)
    (st : List String × Finset String) (h : ∀ x, x ∈ st.1 ↔ x ∈ st.2) :
    ∀ x, x ∈ (entryPointsForPkg tab pkg st).1 ↔ x ∈ (entryPointsForPkg tab pkg st).2 := by
  unfold entryPointsForPkg
  exact expFold_pres_iff pkg tab _
    (condMark_pres_iff _ _ _ (condMark_pres_iff _ _ _ h))

theorem findEntryPoints_fst_iff_snd (tab : SymTab) (mains : List Package) (k : String) :
    k ∈ (findEntryPoints tab mains ∅).1 ↔ k ∈ (findEntryPoints tab mains ∅).2 := by
  unfold findEntryPoints
  suffices h : ∀ (ms : List Package) (st : List String × Finset String),
      (∀ x, x ∈ st.1 ↔ x ∈ st.2) →
      ∀ x, x ∈ (ms.foldl (fun acc pkg => entryPointsForPkg tab pkg acc) st).1 ↔
        x ∈ (ms.foldl (fun acc pkg => entryPointsForPkg tab pkg acc) st).2 by
    exact h mains ([], ∅) (by simp) k
  intro ms
  induction ms with
  | nil =>
    intro st h
    exact h
  | cons hd tl ih =>
    intro st h
    rw [List.foldl_cons]
    exact ih _ (entryPointsForPkg_pres_iff tab hd st h)

/-- The reachable set computed by `traceReachability` from an empty prior
reachable set is exactly the reflexive-transitive closure of the
file-granularity reference relation, started at the entry-point marks. -/
theorem traceReach_mem (pkgs : List Package) (tab : SymTab) (mains : List Package)
    (k : String) :
    k ∈ traceReach pkgs tab mains ∅ ↔
      ∃ rt ∈ (findEntryPoints tab mains ∅).2,
        Relation.ReflTransGen (fun a b => b ∈ findReferencedSymbols pkgs tab a) rt k := by
  unfold traceReach
  apply bfs_closure_mem
  · intro x t ht
    exact succ_mem_succUnion pkgs tab x t ht
  · intro x
    exact findEntryPoints_fst_iff_snd tab mains x
  · have hsub : (succUnion (findReferencedSymbols pkgs tab) tab
        \ (findEntryPoints tab mains ∅).2).card
        ≤ (succUnion (findReferencedSymbols pkgs tab) tab).card :=
      Finset.card_le_card Finset.sdiff_subset
    omega

/-! ## Claims C8 and C9 -/

theorem expStep_pres_sub (pkg : Package) (e : String × Symbol)
    (st : List String × Finset String) (h : ∀ x ∈ st.1, x ∈ st.2) :
    ∀ x ∈ (expStep pkg st e).1, x ∈ (expStep pkg st e).2 := by
  unfold expStep
  by_cases hc : (e.2.pkg == pkg.pkgPath && e.2.exported) = true
  · rw [if_pos hc]
    by_cases hm : e.1 ∈ st.2
    · rw [if_pos hm]
      exact h
    · rw [if_neg hm]
      intro x hx
      rcases List.mem_append.mp hx with hx | hx
      · exact Finset.mem_insert_of_mem (h x hx)
      · rw [List.mem_singleton] at hx
        subst hx
        exact Finset.mem_insert_self _ _
  · rw [if_neg hc]
    exact h

theorem condMark_pres_sub (b : Bool) (key : String) (st : List String × Finset String)
    (h : ∀ x ∈ st.1, x ∈ st.2) :
    ∀ x ∈ (if b = true then (st.1 ++ [key], insert key st.2) else st).1,
      x ∈ (if b = true then (st.1 ++ [key], insert key st.2) else st).2 := by
  by_cases hb : b = true
  · rw [if_pos hb]
    intro x hx
    rcases List.mem_append.mp hx with hx | hx
    · exact Finset.mem_insert_of_mem (h x hx)
    · rw [List.mem_singleton] at hx
      subst hx
      exact Finset.mem_insert_self _ _
  · rw [if_neg hb]
    exact h

theorem entryPointsForPkg_pres_sub (tab : SymTab) (pkg : Package)
    (st : List String × Finset String) (h : ∀ x ∈ st.1, x ∈ st.2) :
    ∀ x ∈ (entryPointsForPkg tab pkg st).1, x ∈ (entryPointsForPkg tab pkg st).2 := by
  unfold entryPointsForPkg
  suffices hf : ∀ (t : SymTab) (st : List String × Finset String),
      (∀ x ∈ st.1, x ∈ st.2) →
      ∀ x ∈ (t.foldl (expStep pkg) st).1, x ∈ (t.foldl (expStep pkg) st).2 by
    exact hf tab _ (condMark_pres_sub _ _ _ (condMark_pres_sub _ _ _ h))
  intro t
  induction t with
  | nil =>
    intro st h
    exact h
  | cons hd tl ih =>
    intro st h
    rw [List.foldl_cons]
    exact ih _ (expStep_pres_sub pkg hd st h)

theorem findEntryPoints_fst_sub (tab : SymTab) (mains : List Package)
    (reach : Finset String) (k : String)
    (hk : k ∈ (findEntryPoints tab mains reach).1) :
    k ∈ (findEntryPoints tab mains reach).2 := by
  unfold findEntryPoints at *
  suffices h : ∀ (ms : List Package) (st : List String × Finset String),
      (∀ x ∈ st.1, x ∈ st.2) →
      ∀ x ∈ (ms.foldl (fun acc pkg => entryPointsForPkg tab pkg acc) st).1,
        x ∈ (ms.foldl (fun acc pkg => entryPointsForPkg tab pkg acc) st).2 by
    exact h mains ([], reach) (by simp) k hk
  intro ms
  induction ms with
  | nil =>
    intro st h
    exact h
  | cons hd tl ih =>
    intro st h
    rw [List.foldl_cons]
    exact ih _ (entryPointsForPkg_pres_sub tab hd st h)

/-- Claim C8: every root key enumerated by the entry-point selector that
names a symbol present in the symbol table is in the reachable set after
tracing.  (In fact every enumerated root is marked when enqueued and the
BFS never unmarks, so the table-presence hypothesis is not even
needed.) -/
theorem c8_root_subsumption (a : Analyzer) (k : String)
    (hq : k ∈ (findEntryPoints a.symbols a.mainPackages a.reachable).1)
    (_hk : (lookupSym a.symbols k).isSome) :
    k ∈ (traceReachability a).reachable := by
  have hr : k ∈ (findEntryPoints a.symbols a.mainPackages a.reachable).2 :=
    findEntryPoints_fst_sub a.symbols a.mainPackages a.reachable k hq
  show k ∈ traceReach a.packages a.symbols a.mainPackages a.reachable
  unfold traceReach
  exact bfs_mono _ _ _ _ _ k hr

/-- The example analyzer after symbol extraction and main-package
identification (the state on which `traceReachability` runs). -/
def exASym : Analyzer := identifyMainPackages { exA with symbols := findSymbols [exPkg] }

/-- Claim C8 witness: on the example project, the root `p.main.function`
names a table symbol and is reachable after tracing. -/
theorem c8_witness : "p.main.function" ∈ (traceReachability exASym).reachable :=
  c8_root_subsumption exASym "p.main.function" (by decide) (by decide)

/-- Claim C9: tracing and orphan selection never read the reference table:
two analyzer states agreeing on packages, symbol table, main packages and
prior reachable set — but with arbitrary, unrelated reference tables —
produce the same reachable set and the same orphan output. -/
theorem c9_references_independent (a1 a2 : Analyzer)
    (hp : a1.packages = a2.packages) (hs : a1.symbols = a2.symbols)
    (hm : a1.mainPackages = a2.mainPackages) (hr : a1.reachable = a2.reachable) :
    (traceReachability a1).reachable = (traceReachability a2).reachable ∧
      findOrphans (traceReachability a1) = findOrphans (traceReachability a2) := by
  have htrace : traceReach a1.packages a1.symbols a1.mainPackages a1.reachable
      = traceReach a2.packages a2.symbols a2.mainPackages a2.reachable := by
    rw [hp, hs, hm, hr]
  refine ⟨htrace, ?_⟩
  show (a1.symbols.filter fun e => !isTestFunction e.2.name
      && !decide (e.1 ∈ traceReach a1.packages a1.symbols a1.mainPackages a1.reachable)).map
        Prod.snd
    = (a2.symbols.filter fun e => !isTestFunction e.2.name
      && !decide (e.1 ∈ traceReach a2.packages a2.symbols a2.mainPackages a2.reachable)).map
        Prod.snd
  rw [htrace, hs]

/-- Claim C9 witness: the example analyzer with two different reference
tables yields identical traced orphan outputs. -/
theorem c9_witness :
    findOrphans (traceReachability { exASym with references := [] })
      = findOrphans (traceReachability
          { exASym with references := [("k", [⟨"f.go", cpos⟩])] }) :=
  (c9_references_independent
    { exASym with references := [] }
    { exASym with references := [("k", [⟨"f.go", cpos⟩])] }
    rfl rfl rfl rfl).2

/-! ## Claim C1 -/

/-- Claim C1 counterexample: on the example project, after tracing, the key
`fmt.Println.function` — an external library symbol with no entry in the
symbol table — is marked reachable: it arose as an edge target during BFS
and was enqueued and marked without a table check. -/
theorem c1_counterexample :
    "fmt.Println.function" ∈ (traceReachability exASym).reachable ∧
      lookupSym exASym.symbols "fmt.Println.function" = none := by
  constructor
  · decide
  · decide

/-- Claim C1 (amended): entry-point roots absent from the symbol table are
indeed never marked — every key marked by the selector names a table
symbol.  But the BFS marks and enqueues edge targets without a table
check, so the traced reachable set need not be a subset of the table's
key-set: a reachable key is an entry-point mark or an edge target of some
table symbol, and keys absent from the table merely contribute no further
edges. -/
theorem c1_reachability_amended :
    (∀ (tab : SymTab) (mains : List Package) (k : String),
        k ∈ (findEntryPoints tab mains ∅).2 → (lookupSym tab k).isSome) ∧
      (∀ (pkgs : List Package) (tab : SymTab) (mains : List Package) (k : String),
        k ∈ traceReach pkgs tab mains ∅ →
          k ∈ (findEntryPoints tab mains ∅).2 ∨
            ∃ j, (lookupSym tab j).isSome ∧ k ∈ findReferencedSymbols pkgs tab j) ∧
      (∀ (pkgs : List Package) (tab : SymTab) (k : String),
        lookupSym tab k = none → findReferencedSymbols pkgs tab k = []) := by
  refine ⟨?_, ?_, ?_⟩
  · intro tab mains k hk
    rw [findEntryPoints_snd_mem] at hk
    rcases hk with hk | ⟨pkg, _, hk⟩
    · exact absurd hk (Finset.not_mem_empty k)
    · rcases hk with ⟨rfl, hs⟩ | ⟨rfl, hs⟩ | ⟨e, he, hek, _, _⟩
      · exact hs
      · exact hs
      · rw [lookupSym_isSome_iff]
        refine ⟨e.2, ?_⟩
        rw [← hek]
        simpa using he
  · intro pkgs tab mains k hk
    rw [traceReach_mem] at hk
    obtain ⟨rt, hrt, hpath⟩ := hk
    rcases Relation.ReflTransGen.cases_tail hpath with heq | ⟨j, _, hjk⟩
    · subst heq
      exact Or.inl hrt
    · refine Or.inr ⟨j, ?_, hjk⟩
      by_cases hj : (lookupSym tab j).isSome
      · exact hj
      · rw [Option.not_isSome_iff_eq_none] at hj
        rw [findReferencedSymbols_of_none pkgs tab j hj] at hjk
        exact absurd hjk (List.not_mem_nil k)
  · intro pkgs tab k h
    exact findReferencedSymbols_of_none pkgs tab k h

/-- Claim C1 witness: the amended statement applied to the example project —
the entry-point mark `p.main.function` does name a table symbol. -/
theorem c1_witness :
    (lookupSym (findSymbols [exPkg]) "p.main.function").isSome :=
  c1_reachability_amended.1 (findSymbols [exPkg]) [exPkg] "p.main.function" (by decide)

/-! ## Claim C7 -/

theorem lookupSym_eq_some_iff_of_nodup (t : SymTab)
    (hnd : (t.map Prod.fst).Nodup) (k : String) (s : Symbol) :
    lookupSym t k = some s ↔ (k, s) ∈ t := by
  induction t with
  | nil => simp [lookupSym, List.find?]
  | cons hd tl ih =>
    rw [List.map_cons, List.nodup_cons] at hnd
    obtain ⟨hhd, hnd⟩ := hnd
    unfold lookupSym
    by_cases hk : (hd.1 == k) = true
    · rw [beq_iff_eq] at hk
      subst hk
      simp only [List.find?, beq_self_eq_true, Option.map_some', Option.some.injEq,
        List.mem_cons]
      constructor
      · intro hs
        subst hs
        exact Or.inl rfl
      · rintro (heq | hmem)
        · exact (congrArg Prod.snd heq).symm
        · exfalso
          exact hhd (List.mem_map.mpr ⟨(hd.1, s), hmem, rfl⟩)
    · have hkf : (hd.1 == k) = false := by rwa [Bool.not_eq_true] at hk
      simp only [List.find?, hkf]
      have hgoal : Option.map Prod.snd (tl.find? fun p => p.1 == k) = lookupSym tl k := rfl
      rw [hgoal, ih hnd]
      simp only [List.mem_cons]
      constructor
      · exact Or.inr
      · rintro (heq | hmem)
        · exfalso
          rw [beq_eq_false_iff_ne] at hkf
          exact hkf (congrArg Prod.fst heq.symm)
        · exact hmem

theorem lookupSym_perm (t1 t2 : SymTab) (hperm : t1.Perm t2)
    (hnd : (t1.map Prod.fst).Nodup) (k : String) :
    lookupSym t1 k = lookupSym t2 k := by
  have hnd2 : (t2.map Prod.fst).Nodup := ((hperm.map Prod.fst).nodup_iff).mp hnd
  cases h1 : lookupSym t1 k with
  | none =>
    rw [lookupSym_eq_none_iff] at h1
    rw [eq_comm, lookupSym_eq_none_iff]
    intro s hs
    exact h1 s (hperm.mem_iff.mpr hs)
  | some s =>
    rw [lookupSym_eq_some_iff_of_nodup t1 hnd] at h1
    rw [eq_comm, lookupSym_eq_some_iff_of_nodup t2 hnd2]
    exact hperm.mem_iff.mp h1

theorem findReferencedSymbols_congr (pkgs : List Package) (t1 t2 : SymTab)
    (h : ∀ k, lookupSym t1 k = lookupSym t2 k) (k : String) :
    findReferencedSymbols pkgs t1 k = findReferencedSymbols pkgs t2 k := by
  unfold findReferencedSymbols
  rw [h k]

theorem rootSpec_congr (t1 t2 : SymTab) (hperm : t1.Perm t2)
    (h : ∀ k, lookupSym t1 k = lookupSym t2 k) (pkg : Package) (k : String) :
    rootSpec t1 pkg k ↔ rootSpec t2 pkg k := by
  unfold rootSpec
  rw [h k]
  constructor
  · rintro (hc | hc | ⟨e, he, hc⟩)
    · exact Or.inl hc
    · exact Or.inr (Or.inl hc)
    · exact Or.inr (Or.inr ⟨e, hperm.mem_iff.mp he, hc⟩)
  · rintro (hc | hc | ⟨e, he, hc⟩)
    · exact Or.inl hc
    · exact Or.inr (Or.inl hc)
    · exact Or.inr (Or.inr ⟨e, hperm.mem_iff.mpr he, hc⟩)

/-- Claim C7: for a fixed input (packages, syntax trees and resolution
data), the traced reachable set has the same membership regardless of the
enumeration order of the symbol table — two analyzers over permutations
of the same table (with its keys unique, as Go map iteration presents
them) trace identical reachable sets. -/
theorem c7_reachability_deterministic (a1 a2 : Analyzer)
    (hpkgs : a1.packages = a2.packages)
    (hmains : a1.mainPackages = a2.mainPackages)
    (hperm : a1.symbols.Perm a2.symbols)
    (hnd : (a1.symbols.map Prod.fst).Nodup)
    (hr1 : a1.reachable = ∅) (hr2 : a2.reachable = ∅) :
    (traceReachability a1).reachable = (traceReachability a2).reachable := by
  have hlk : ∀ k, lookupSym a1.symbols k = lookupSym a2.symbols k :=
    lookupSym_perm a1.symbols a2.symbols hperm hnd
  have hroots : (findEntryPoints a1.symbols a2.mainPackages ∅).2
      = (findEntryPoints a2.symbols a2.mainPackages ∅).2 := by
    apply Finset.ext
    intro x
    rw [findEntryPoints_snd_mem, findEntryPoints_snd_mem]
    constructor
    · rintro (hx | ⟨pkg, hpkg, hx⟩)
      · exact Or.inl hx
      · exact Or.inr ⟨pkg, hpkg,
          (rootSpec_congr a1.symbols a2.symbols hperm hlk pkg x).mp hx⟩
    · rintro (hx | ⟨pkg, hpkg, hx⟩)
      · exact Or.inl hx
      · exact Or.inr ⟨pkg, hpkg,
          (rootSpec_congr a1.symbols a2.symbols hperm hlk pkg x).mpr hx⟩
  have hrel : (fun x y => y ∈ findReferencedSymbols a2.packages a1.symbols x)
      = fun x y => y ∈ findReferencedSymbols a2.packages a2.symbols x := by
    funext x y
    rw [findReferencedSymbols_congr a2.packages a1.symbols a2.symbols hlk x]
  show traceReach a1.packages a1.symbols a1.mainPackages a1.reachable
    = traceReach a2.packages a2.symbols a2.mainPackages a2.reachable
  rw [hr1, hr2, hpkgs, hmains]
  apply Finset.ext
  intro k
  rw [traceReach_mem, traceReach_mem, hroots, hrel]

/-- A second declaring occurrence for the permutation example. -/
def helperIdent : Ident := { name := "helper", pos := cpos, endPos := cpos, use := none }

/-- `func helper() {}` alongside `main` in the example package. -/
def helperFunc : FuncDecl :=
  { name := some helperIdent, sigExprs := [], body := [], pos := cpos, endPos := cpos }

/-- A two-declaration file for the permutation example. -/
def exFile2 : GoFile := { decls := [.funcDecl mainFunc, .funcDecl helperFunc] }

/-- A two-symbol package for the permutation example. -/
def exPkg2 : Package :=
  { pkgPath := "p2", name := "main", syntaxTrees := [exFile2],
    compiledGoFiles := ["a.go"], loadErrors := [] }

/-- The permutation example, table in extraction order. -/
def permA1 : Analyzer :=
  { newAnalyzer exCfg with
      packages := [exPkg2]
      symbols := findSymbols [exPkg2]
      mainPackages := [exPkg2] }

/-- The permutation example, table in the reversed order. -/
def permA2 : Analyzer :=
  { newAnalyzer exCfg with
      packages := [exPkg2]
      symbols := (findSymbols [exPkg2]).reverse
      mainPackages := [exPkg2] }

/-- Claim C7 witness: the two enumeration orders of the example's two-symbol
table trace the same reachable set. -/
theorem c7_witness :
    (traceReachability permA1).reachable = (traceReachability permA2).reachable :=
  c7_reachability_deterministic permA1 permA2 rfl rfl (by decide) (by decide) rfl rfl

/-! ## Claim C10 -/

theorem expFold_fst_mono (pkg : Package) :
    ∀ (tab : SymTab) (st : List String × Finset String) (x : String),
      x ∈ st.1 → x ∈ (tab.foldl (expStep pkg) st).1 := by
  intro tab
  induction tab with
  | nil =>
    intro st x hx
    exact hx
  | cons hd tl ih =>
    intro st x hx
    rw [List.foldl_cons]
    apply ih
    unfold expStep
    by_cases hc : (hd.2.pkg == pkg.pkgPath && hd.2.exported) = true
    · rw [if_pos hc]
      by_cases hm : hd.1 ∈ st.2
      · rw [if_pos hm]
        exact hx
      · rw [if_neg hm]
        exact List.mem_append_left _ hx
    · rw [if_neg hc]
      exact hx

theorem condMark_fst_mono (b : Bool) (key : String) (st : List String × Finset String)
    (x : String) (hx : x ∈ st.1) :
    x ∈ (if b = true then (st.1 ++ [key], insert key st.2) else st).1 := by
  by_cases hb : b = true
  · rw [if_pos hb]
    exact List.mem_append_left _ hx
  · rw [if_neg hb]
    exact hx

theorem entryPointsForPkg_main_mem (tab : SymTab) (pkg : Package)
    (st : List String × Finset String)
    (h : (lookupSym tab (getSymbolKey pkg.pkgPath "main" "function")).isSome) :
    getSymbolKey pkg.pkgPath "main" "function" ∈ (entryPointsForPkg tab pkg st).1 := by
  unfold entryPointsForPkg
  apply expFold_fst_mono
  apply condMark_fst_mono
  rw [if_pos h]
  exact List.mem_append_right _ (List.mem_singleton.mpr rfl)

theorem entryPointsForPkg_init_mem (tab : SymTab) (pkg : Package)
    (st : List String × Finset String)
    (h : (lookupSym tab (getSymbolKey pkg.pkgPath "init" "function")).isSome) :
    getSymbolKey pkg.pkgPath "init" "function" ∈ (entryPointsForPkg tab pkg st).1 := by
  unfold entryPointsForPkg
  apply expFold_fst_mono
  rw [if_pos h]
  exact List.mem_append_right _ (List.mem_singleton.mpr rfl)

theorem entryPointsForPkg_fst_mono (tab : SymTab) (pkg : Package)
    (st : List String × Finset String) (x : String) (hx : x ∈ st.1) :
    x ∈ (entryPointsForPkg tab pkg st).1 := by
  unfold entryPointsForPkg
  apply expFold_fst_mono
  apply condMark_fst_mono
  apply condMark_fst_mono
  exact hx

theorem mainsFold_fst_mono (tab : SymTab) :
    ∀ (ms : List Package) (st : List String × Finset String) (x : String), x ∈ st.1 →
      x ∈ (ms.foldl (fun acc p => entryPointsForPkg tab p acc) st).1 := by
  intro ms
  induction ms with
  | nil =>
    intro st x hx
    exact hx
  | cons hd tl ih =>
    intro st x hx
    rw [List.foldl_cons]
    exact ih _ x (entryPointsForPkg_fst_mono tab hd st x hx)

theorem mainsFold_key_mem (tab : SymTab) (pkg : Package) (key : String)
    (hstep : ∀ st, key ∈ (entryPointsForPkg tab pkg st).1) :
    ∀ (ms : List Package) (st : List String × Finset String), pkg ∈ ms →
      key ∈ (ms.foldl (fun acc p => entryPointsForPkg tab p acc) st).1 := by
  intro ms
  induction ms with
  | nil =>
    intro st h
    exact absurd h (List.not_mem_nil pkg)
  | cons hd tl ih =>
    intro st hmem
    rw [List.foldl_cons]
    rcases List.mem_cons.mp hmem with heq | hmem
    · subst heq
      exact mainsFold_fst_mono tab tl _ key (hstep st)
    · exact ih _ hmem

/-- Claim C10: when no retained package is named `main`, every retained
package is treated as an entry-point package for all three
root-enumeration steps: a `<pkg>.main.Function` or `<pkg>.init.Function`
key present in the table is added to the root queue and is reachable
after tracing, and every exported symbol of every retained package is
reachable after tracing. -/
theorem c10_library_mode_roots (a : Analyzer)
    (hnomain : ∀ pkg ∈ a.packages, pkg.name ≠ "main") :
    (identifyMainPackages a).mainPackages = a.packages ∧
      ∀ pkg ∈ a.packages,
        ((lookupSym a.symbols (getSymbolKey pkg.pkgPath "main" "function")).isSome →
          getSymbolKey pkg.pkgPath "main" "function"
              ∈ (findEntryPoints a.symbols (identifyMainPackages a).mainPackages
                a.reachable).1 ∧
            getSymbolKey pkg.pkgPath "main" "function"
              ∈ (traceReachability (identifyMainPackages a)).reachable) ∧
        ((lookupSym a.symbols (getSymbolKey pkg.pkgPath "init" "function")).isSome →
          getSymbolKey pkg.pkgPath "init" "function"
              ∈ (findEntryPoints a.symbols (identifyMainPackages a).mainPackages
                a.reachable).1 ∧
            getSymbolKey pkg.pkgPath "init" "function"
              ∈ (traceReachability (identifyMainPackages a)).reachable) ∧
        (∀ e ∈ a.symbols, e.2.pkg = pkg.pkgPath → e.2.exported = true →
          e.1 ∈ (traceReachability (identifyMainPackages a)).reachable) := by
  have hfilter : a.packages.filter (fun p => p.name == "main") = [] := by
    rw [List.filter_eq_nil_iff]
    intro p hp
    rw [Bool.not_eq_true, beq_eq_false_iff_ne]
    exact hnomain p hp
  have hmains : (identifyMainPackages a).mainPackages = a.packages := by
    unfold identifyMainPackages
    rw [hfilter]
    rfl
  refine ⟨hmains, ?_⟩
  intro pkg hpkg
  have htr : (traceReachability (identifyMainPackages a)).reachable
      = traceReach a.packages a.symbols (identifyMainPackages a).mainPackages
          a.reachable := rfl
  refine ⟨?_, ?_, ?_⟩
  · intro hmain
    constructor
    · rw [hmains]
      unfold findEntryPoints
      exact mainsFold_key_mem a.symbols pkg _
        (fun st => entryPointsForPkg_main_mem a.symbols pkg st hmain)
        a.packages ([], a.reachable) hpkg
    · rw [htr, hmains]
      unfold traceReach
      apply bfs_mono
      rw [findEntryPoints_snd_mem]
      exact Or.inr ⟨pkg, hpkg, Or.inl ⟨rfl, hmain⟩⟩
  · intro hinit
    constructor
    · rw [hmains]
      unfold findEntryPoints
      exact mainsFold_key_mem a.symbols pkg _
        (fun st => entryPointsForPkg_init_mem a.symbols pkg st hinit)
        a.packages ([], a.reachable) hpkg
    · rw [htr, hmains]
      unfold traceReach
      apply bfs_mono
      rw [findEntryPoints_snd_mem]
      exact Or.inr ⟨pkg, hpkg, Or.inr (Or.inl ⟨rfl, hinit⟩)⟩
  · intro e he hp hx
    rw [htr, hmains]
    unfold traceReach
    apply bfs_mono
    rw [findEntryPoints_snd_mem]
    exact Or.inr ⟨pkg, hpkg, Or.inr (Or.inr ⟨e, he, rfl, hp, hx⟩)⟩

/-- The declaring occurrence of the exported library function `Pub`. -/
def pubIdent : Ident := { name := "Pub", pos := cpos, endPos := cpos, use := none }

/-- `func Pub() {}` in the library example. -/
def pubFunc : FuncDecl :=
  { name := some pubIdent, sigExprs := [], body := [], pos := cpos, endPos := cpos }

/-- The single file of the library example package. -/
def libFile : GoFile := { decls := [.funcDecl pubFunc] }

/-- A library package (its simple name is not `main`). -/
def libPkg : Package :=
  { pkgPath := "lib", name := "lib", syntaxTrees := [libFile],
    compiledGoFiles := ["lib.go"], loadErrors := [] }

/-- A loaded analyzer for the library example. -/
def libA : Analyzer :=
  { newAnalyzer exCfg with
      packages := [libPkg]
      symbols := findSymbols [libPkg] }

/-- The `Symbol` recorded for `Pub` in the library example. -/
def pubSym : Symbol :=
  { name := "Pub", kind := "function", file := "lib.go", startP := ⟨1, 1⟩,
    endP := ⟨1, 1⟩, exported := true, pkg := "lib", posn := cpos }

/-- Claim C10 witness: in the library example (no package named `main`),
the exported symbol `lib.Pub.function` is reachable after tracing. -/
theorem c10_witness :
    ("lib.Pub.function" : String)
      ∈ (traceReachability (identifyMainPackages libA)).reachable := by
  have h := ((c10_library_mode_roots libA (by decide)).2 libPkg (by decide)).2.2
    ("lib.Pub.function", pubSym) (by decide) (by decide) (by decide)
  exact h

/-! ## Claim C3 -/

/-- Claim C3 counterexample: a loader success carrying zero packages is not
fatal.  `loadProject` returns `ok []` — no `LoadFailure` is surfaced —
and the pipeline proceeds to an ordinary (empty) analysis result. -/
theorem c3_counterexample :
    loadProject exCfg (fun _ _ => false) (Except.ok []) = Except.ok [] ∧
      (analyze exCfg (fun _ _ => false) (Except.ok [])).isOk = true := by
  constructor
  · rfl
  · rfl

/-- Claim C3 (amended): the pipeline aborts exactly when the loader call
itself returns an error, and the error is wrapped and surfaced to the
caller; a successful load is never fatal — in particular a load that
returns no packages at all yields an empty retained list, not an abort.
Per-package errors are non-fatal: exactly the error-free, non-excluded
packages are retained. -/
theorem c3_loader_error_handling (cfg : Config) (gm : String → String → Bool) :
    (∀ e, loadProject cfg gm (Except.error e)
        = Except.error ("failed to load packages: " ++ e)) ∧
      (∀ pkgs, ∃ kept, loadProject cfg gm (Except.ok pkgs) = Except.ok kept ∧
        ∀ p, p ∈ kept ↔
          p ∈ pkgs ∧ p.loadErrors = [] ∧ isPackageExcluded cfg gm p.pkgPath = false) := by
  constructor
  · intro e
    rfl
  · intro pkgs
    refine ⟨_, rfl, ?_⟩
    intro p
    rw [List.mem_filter]
    simp only [Bool.and_eq_true, List.isEmpty_iff, Bool.not_eq_true']

/-! ## Claim C6 -/

/-- The name identifier of the value-spec counterexample: `x`, spanning
columns 5–6. -/
def vIdent : Ident :=
  { name := "x", pos := ⟨"v.go", 1, 5⟩, endPos := ⟨"v.go", 1, 6⟩, use := none }

/-- A value spec `var x ...` whose own node ends at column 14, past the end
of the name identifier. -/
def vSpec : Spec := .valueSpec [some vIdent] [] ⟨"v.go", 1, 1⟩ ⟨"v.go", 1, 14⟩

/-- The declaration node of the value-spec counterexample. -/
def vDecl : GenDecl :=
  { tok := .tokVar, specs := [vSpec], pos := ⟨"v.go", 1, 1⟩, endPos := ⟨"v.go", 1, 14⟩ }

/-- The package of the value-spec counterexample. -/
def vPkg : Package :=
  { pkgPath := "v", name := "v", syntaxTrees := [⟨[.genDecl vDecl]⟩],
    compiledGoFiles := ["v.go"], loadErrors := [] }

/-- Claim C6 counterexample: for the variable `x`, the recorded end position
is the end of the *name identifier* (column 6), not the end of the
declaration node (column 14): the claim's "the end position is the end of
the declaration node" fails for value specifications. -/
theorem c6_counterexample :
    (lookupSym (findSymbols [vPkg]) "v.x.variable").map Symbol.endP
        = some ⟨1, 6⟩ ∧
      (⟨1, 6⟩ : Position) ≠ positionOf vDecl.endPos := by
  refine ⟨by decide, by decide⟩

/-- Claim C6 (amended): function symbols span the whole declaration
(`node.Pos()`–`node.End()`); type symbols span the type-spec node
(`spec.Pos()`–`spec.End()`); but for value specifications *both* the
start and the end are taken from the name identifier (`name.Pos()`,
`name.End()`) — the end is not the end of the declaration node. -/
theorem c6_positions_amended :
    (∀ (pkg : Package) (nm : Ident) (sig : List Expr) (body : List Stmt)
        (p q : TokPos) (fn : String) (tab : SymTab), nm.name ≠ "_" →
      lookupSym (processFunctionDecl pkg ⟨some nm, sig, body, p, q⟩ fn tab)
          (getSymbolKey pkg.pkgPath nm.name "function")
        = some { name := nm.name, kind := "function", file := fn, posn := p,
                 startP := positionOf p, endP := positionOf q,
                 exported := isExported nm.name, pkg := pkg.pkgPath }) ∧
      (∀ (pkg : Package) (nm : Ident) (p q : TokPos) (fn : String) (tab : SymTab),
          nm.name ≠ "_" →
        lookupSym (processTypeSpec pkg (some nm) p q fn tab)
            (getSymbolKey pkg.pkgPath nm.name "type")
          = some { name := nm.name, kind := "type", file := fn, posn := p,
                   startP := positionOf p, endP := positionOf q,
                   exported := isExported nm.name, pkg := pkg.pkgPath }) ∧
      (∀ (pkg : Package) (nm : Ident) (tok : GoTok) (fn : String) (tab : SymTab),
          nm.name ≠ "_" →
        lookupSym (processValueSpec pkg [some nm] tok fn tab)
            (getSymbolKey pkg.pkgPath nm.name (valueKind tok))
          = some { name := nm.name, kind := valueKind tok, file := fn, posn := nm.pos,
                   startP := positionOf nm.pos, endP := positionOf nm.endPos,
                   exported := isExported nm.name, pkg := pkg.pkgPath }) := by
  refine ⟨?_, ?_, ?_⟩
  · intro pkg nm sig body p q fn tab hnm
    unfold processFunctionDecl
    simp only []
    rw [if_neg hnm]
    rw [lookupSym_mapInsert]
    rw [if_pos rfl]
  · intro pkg nm p q fn tab hnm
    unfold processTypeSpec
    simp only []
    rw [if_neg hnm]
    rw [lookupSym_mapInsert]
    rw [if_pos rfl]
  · intro pkg nm tok fn tab hnm
    unfold processValueSpec
    rw [List.foldl_cons, List.foldl_nil]
    unfold valueSpecStep
    simp only []
    rw [if_neg hnm]
    rw [lookupSym_mapInsert]
    rw [if_pos rfl]

/-- Claim C6 witness: the amended position rule evaluated on the
counterexample value spec — the recorded symbol's end is the name
identifier's end. -/
theorem c6_witness :
    lookupSym (processValueSpec vPkg [some vIdent] GoTok.tokVar "v.go" [])
        (getSymbolKey vPkg.pkgPath vIdent.name (valueKind GoTok.tokVar))
      = some { name := vIdent.name, kind := valueKind GoTok.tokVar, file := "v.go",
               posn := vIdent.pos, startP := positionOf vIdent.pos,
               endP := positionOf vIdent.endPos, exported := isExported vIdent.name,
               pkg := vPkg.pkgPath } :=
  c6_positions_amended.2.2 vPkg vIdent GoTok.tokVar "v.go" [] (by decide)

/-! ## Claim C4 -/

/-- The (name, kind) pairs recorded from the names of one value spec:
non-nil, non-blank names, with the token-determined kind. -/
def valueSpecDeclNames (tok : GoTok) (names : List (Option Ident)) :
    List (String × String) :=
  names.filterMap fun n =>
    match n with
    | none => none
    | some nm => if nm.name = "_" then none else some (nm.name, valueKind tok)

/-- The (name, kind) pairs recorded from one spec node. -/
def specDeclNames (tok : GoTok) : Spec → List (String × String)
  | .typeSpec name _ _ _ =>
    (match name with
     | none => none
     | some nm => if nm.name = "_" then none else some (nm.name, "type")).toList
  | .valueSpec names _ _ _ => valueSpecDeclNames tok names

/-- The (name, kind) pairs recorded from one general declaration. -/
def genDeclNames (g : GenDecl) : List (String × String) :=
  g.specs.foldr (fun s acc => specDeclNames g.tok s ++ acc) []

/-- The (name, kind) pairs recorded while walking one statement. -/
def stmtDeclNames : Stmt → List (String × String)
  | .exprStmt _ => []
  | .declStmt g => genDeclNames g

/-- The (name, kind) pairs recorded from one top-level declaration,
including those of general declarations nested in a function body. -/
def declNames : Decl → List (String × String)
  | .funcDecl f =>
    (match f.name with
     | none => none
     | some nm => if nm.name = "_" then none else some (nm.name, "function")).toList
      ++ f.body.foldr (fun s acc => stmtDeclNames s ++ acc) []
  | .genDecl g => genDeclNames g

/-- All (name, kind) pairs recorded while walking one file. -/
def fileDeclNames (f : GoFile) : List (String × String) :=
  f.decls.foldr (fun d acc => declNames d ++ acc) []

theorem mem_foldr_append {α β : Type} (f : α → List β) (l : List α) (y : β) :
    y ∈ l.foldr (fun a acc => f a ++ acc) [] ↔ ∃ a ∈ l, y ∈ f a := by
  induction l with
  | nil => simp
  | cons hd tl ih =>
    rw [List.foldr_cons, List.mem_append, ih]
    constructor
    · rintro (h | ⟨a, ha, hy⟩)
      · exact ⟨hd, List.mem_cons_self _ _, h⟩
      · exact ⟨a, List.mem_cons_of_mem _ ha, hy⟩
    · rintro ⟨a, ha, hy⟩
      rcases List.mem_cons.mp ha with h | h
      · subst h
        exact Or.inl hy
      · exact Or.inr ⟨a, h, hy⟩

theorem lookupSym_mapInsert_isSome (tab : SymTab) (k : String) (s : Symbol)
    (k2 : String) :
    (lookupSym (mapInsert tab k s) k2).isSome ↔ (lookupSym tab k2).isSome ∨ k2 = k := by
  rw [lookupSym_mapInsert]
  by_cases h : k2 = k
  · simp [h]
  · simp [h]

theorem foldl_lookup_isSome {α : Type} (f : SymTab → α → SymTab) (k : String)
    (Q : α → Prop)
    (hf : ∀ tab x, (lookupSym (f tab x) k).isSome ↔ (lookupSym tab k).isSome ∨ Q x) :
    ∀ (l : List α) (tab : SymTab),
      (lookupSym (l.foldl f tab) k).isSome ↔
        (lookupSym tab k).isSome ∨ ∃ x ∈ l, Q x := by
  intro l
  induction l with
  | nil =>
    intro tab
    simp
  | cons hd tl ih =>
    intro tab
    rw [List.foldl_cons, ih, hf]
    constructor
    · rintro ((h | h) | ⟨x, hx, hq⟩)
      · exact Or.inl h
      · exact Or.inr ⟨hd, List.mem_cons_self _ _, h⟩
      · exact Or.inr ⟨x, List.mem_cons_of_mem _ hx, hq⟩
    · rintro (h | ⟨x, hx, hq⟩)
      · exact Or.inl (Or.inl h)
      · rcases List.mem_cons.mp hx with h1 | h1
        · subst h1
          exact Or.inl (Or.inr hq)
        · exact Or.inr ⟨x, h1, hq⟩

theorem valueSpecStep_lookup (pkg : Package) (tok : GoTok) (fn : String)
    (tab : SymTab) (n : Option Ident) (k : String) :
    (lookupSym (valueSpecStep pkg tok fn tab n) k).isSome ↔
      (lookupSym tab k).isSome ∨
        ∃ nm, n = some nm ∧ ¬nm.name = "_"
          ∧ k = getSymbolKey pkg.pkgPath nm.name (valueKind tok) := by
  cases n with
  | none => simp [valueSpecStep]
  | some nm =>
    unfold valueSpecStep
    simp only []
    by_cases h : nm.name = "_"
    · rw [if_pos h]
      simp only [Option.some.injEq, iff_self_or]
      rintro ⟨nm2, heq, hne, _⟩
      subst heq
      exact absurd h hne
    · rw [if_neg h]
      rw [lookupSym_mapInsert_isSome]
      simp only [Option.some.injEq]
      constructor
      · rintro (hx | hk)
        · exact Or.inl hx
        · exact Or.inr ⟨nm, rfl, h, hk⟩
      · rintro (hx | ⟨nm2, heq, _, hk⟩)
        · exact Or.inl hx
        · subst heq
          exact Or.inr hk

theorem mem_valueSpecDeclNames (tok : GoTok) (names : List (Option Ident))
    (nk : String × String) :
    nk ∈ valueSpecDeclNames tok names ↔
      ∃ n ∈ names, ∃ nm, n = some nm ∧ ¬nm.name = "_"
        ∧ nk = (nm.name, valueKind tok) := by
  unfold valueSpecDeclNames
  rw [List.mem_filterMap]
  constructor
  · rintro ⟨n, hn, hf⟩
    cases n with
    | none => exact absurd hf (by simp)
    | some nm =>
      simp only [] at hf
      by_cases h : nm.name = "_"
      · rw [if_pos h] at hf
        exact absurd hf (by simp)
      · rw [if_neg h] at hf
        rw [Option.some.injEq] at hf
        exact ⟨some nm, hn, nm, rfl, h, hf.symm⟩
  · rintro ⟨n, hn, nm, heq, hne, hnk⟩
    subst heq
    refine ⟨some nm, hn, ?_⟩
    simp only []
    rw [if_neg hne, hnk]

theorem processValueSpec_lookup (pkg : Package) (names : List (Option Ident))
    (tok : GoTok) (fn : String) (tab : SymTab) (k : String) :
    (lookupSym (processValueSpec pkg names tok fn tab) k).isSome ↔
      (lookupSym tab k).isSome ∨
        ∃ nk ∈ valueSpecDeclNames tok names, k = getSymbolKey pkg.pkgPath nk.1 nk.2 := by
  unfold processValueSpec
  rw [foldl_lookup_isSome (valueSpecStep pkg tok fn) k
    (fun n => ∃ nm, n = some nm ∧ ¬nm.name = "_"
      ∧ k = getSymbolKey pkg.pkgPath nm.name (valueKind tok))
    (fun tab n => valueSpecStep_lookup pkg tok fn tab n k) names tab]
  constructor
  · rintro (h | ⟨n, hn, nm, heq, hne, hk⟩)
    · exact Or.inl h
    · refine Or.inr ⟨(nm.name, valueKind tok), ?_, hk⟩
      rw [mem_valueSpecDeclNames]
      exact ⟨n, hn, nm, heq, hne, rfl⟩
  · rintro (h | ⟨nk, hnk, hk⟩)
    · exact Or.inl h
    · rw [mem_valueSpecDeclNames] at hnk
      obtain ⟨n, hn, nm, heq, hne, hnk2⟩ := hnk
      refine Or.inr ⟨n, hn, nm, heq, hne, ?_⟩
      rw [hk, hnk2]

theorem processTypeSpec_lookup (pkg : Package) (name : Option Ident)
    (p q : TokPos) (fn : String) (tab : SymTab) (k : String) :
    (lookupSym (processTypeSpec pkg name p q fn tab) k).isSome ↔
      (lookupSym tab k).isSome ∨
        ∃ nm, name = some nm ∧ ¬nm.name = "_"
          ∧ k = getSymbolKey pkg.pkgPath nm.name "type" := by
  cases name with
  | none => simp [processTypeSpec]
  | some nm =>
    unfold processTypeSpec
    simp only []
    by_cases h : nm.name = "_"
    · rw [if_pos h]
      simp only [Option.some.injEq, iff_self_or]
      rintro ⟨nm2, heq, hne, _⟩
      subst heq
      exact absurd h hne
    · rw [if_neg h]
      rw [lookupSym_mapInsert_isSome]
      simp only [Option.some.injEq]
      constructor
      · rintro (hx | hk)
        · exact Or.inl hx
        · exact Or.inr ⟨nm, rfl, h, hk⟩
      · rintro (hx | ⟨nm2, heq, _, hk⟩)
        · exact Or.inl hx
        · subst heq
          exact Or.inr hk

theorem specStep_lookup (pkg : Package) (tok : GoTok) (fn : String)
    (tab : SymTab) (s : Spec) (k : String) :
    (lookupSym (specStep pkg tok fn tab s) k).isSome ↔
      (lookupSym tab k).isSome ∨
        ∃ nk ∈ specDeclNames tok s, k = getSymbolKey pkg.pkgPath nk.1 nk.2 := by
  cases s with
  | typeSpec name tyExprs p q =>
    rw [show specStep pkg tok fn tab (.typeSpec name tyExprs p q)
      = processTypeSpec pkg name p q fn tab from rfl]
    rw [processTypeSpec_lookup]
    unfold specDeclNames
    simp only []
    cases name with
    | none => simp
    | some nm =>
      simp only []
      by_cases h : nm.name = "_"
      · rw [if_pos h]
        simp only [Option.toList_none, List.not_mem_nil, false_and, exists_false,
          or_false, Option.some.injEq]
        constructor
        · rintro (hx | ⟨nm2, heq, hne, _⟩)
          · exact hx
          · subst heq
            exact absurd h hne
        · exact Or.inl
      · rw [if_neg h]
        simp only [Option.toList_some, List.mem_singleton, Option.some.injEq]
        constructor
        · rintro (hx | ⟨nm2, heq, _, hk⟩)
          · exact Or.inl hx
          · subst heq
            exact Or.inr ⟨(nm.name, "type"), rfl, hk⟩
        · rintro (hx | ⟨nk, hnk, hk⟩)
          · exact Or.inl hx
          · subst hnk
            exact Or.inr ⟨nm, rfl, h, hk⟩
  | valueSpec names values p q =>
    rw [show specStep pkg tok fn tab (.valueSpec names values p q)
      = processValueSpec pkg names tok fn tab from rfl]
    rw [processValueSpec_lookup]
    rfl

theorem processGenDecl_lookup (pkg : Package) (g : GenDecl) (fn : String)
    (tab : SymTab) (k : String) :
    (lookupSym (processGenDecl pkg g fn tab) k).isSome ↔
      (lookupSym tab k).isSome ∨
        ∃ nk ∈ genDeclNames g, k = getSymbolKey pkg.pkgPath nk.1 nk.2 := by
  unfold processGenDecl
  rw [foldl_lookup_isSome (specStep pkg g.tok fn) k
    (fun s => ∃ nk ∈ specDeclNames g.tok s, k = getSymbolKey pkg.pkgPath nk.1 nk.2)
    (fun tab s => specStep_lookup pkg g.tok fn tab s k) g.specs tab]
  unfold genDeclNames
  constructor
  · rintro (h | ⟨s, hs, nk, hnk, hk⟩)
    · exact Or.inl h
    · exact Or.inr ⟨nk, (mem_foldr_append _ _ _).mpr ⟨s, hs, hnk⟩, hk⟩
  · rintro (h | ⟨nk, hnk, hk⟩)
    · exact Or.inl h
    · obtain ⟨s, hs, hnk⟩ := (mem_foldr_append _ _ _).mp hnk
      exact Or.inr ⟨s, hs, nk, hnk, hk⟩

theorem mem_nameToList (name : Option Ident) (kindStr : String) (nk : String × String) :
    nk ∈ (match name with
      | none => none
      | some nm => if nm.name = "_" then none
        else some (nm.name, kindStr)).toList ↔
      ∃ nm, name = some nm ∧ ¬nm.name = "_" ∧ nk = (nm.name, kindStr) := by
  cases name with
  | none => simp
  | some nm =>
    simp only []
    by_cases h : nm.name = "_"
    · rw [if_pos h]
      simp only [Option.toList_none, List.not_mem_nil, false_iff, not_exists]
      rintro nm2 ⟨heq, hne, _⟩
      rw [Option.some.injEq] at heq
      subst heq
      exact hne h
    · rw [if_neg h]
      simp only [Option.toList_some, List.mem_singleton, Option.some.injEq]
      constructor
      · intro hk
        exact ⟨nm, rfl, h, hk⟩
      · rintro ⟨nm2, heq, _, hk⟩
        subst heq
        exact hk

theorem processFunctionDecl_lookup (pkg : Package) (f : FuncDecl) (fn : String)
    (tab : SymTab) (k : String) :
    (lookupSym (processFunctionDecl pkg f fn tab) k).isSome ↔
      (lookupSym tab k).isSome ∨
        ∃ nm, f.name = some nm ∧ ¬nm.name = "_"
          ∧ k = getSymbolKey pkg.pkgPath nm.name "function" := by
  unfold processFunctionDecl
  cases hname : f.name with
  | none =>
    simp only []
    simp [hname]
  | some nm =>
    simp only []
    by_cases h : nm.name = "_"
    · rw [if_pos h]
      simp only [hname, Option.some.injEq, iff_self_or]
      rintro ⟨nm2, heq, hne, _⟩
      subst heq
      exact absurd h hne
    · rw [if_neg h]
      rw [lookupSym_mapInsert_isSome]
      simp only [hname, Option.some.injEq]
      constructor
      · rintro (hx | hk)
        · exact Or.inl hx
        · exact Or.inr ⟨nm, rfl, h, hk⟩
      · rintro (hx | ⟨nm2, heq, _, hk⟩)
        · exact Or.inl hx
        · subst heq
          exact Or.inr hk

theorem symbolsInStmt_lookup (pkg : Package) (fn : String) (tab : SymTab)
    (st : Stmt) (k : String) :
    (lookupSym (symbolsInStmt pkg fn tab st) k).isSome ↔
      (lookupSym tab k).isSome ∨
        ∃ nk ∈ stmtDeclNames st, k = getSymbolKey pkg.pkgPath nk.1 nk.2 := by
  cases st with
  | exprStmt e =>
    rw [show symbolsInStmt pkg fn tab (.exprStmt e) = tab from rfl]
    simp [stmtDeclNames]
  | declStmt g =>
    rw [show symbolsInStmt pkg fn tab (.declStmt g)
      = processGenDecl pkg g fn tab from rfl]
    rw [processGenDecl_lookup]
    rfl

theorem declStep_lookup (pkg : Package) (fn : String) (tab : SymTab)
    (d : Decl) (k : String) :
    (lookupSym (declStep pkg fn tab d) k).isSome ↔
      (lookupSym tab k).isSome ∨
        ∃ nk ∈ declNames d, k = getSymbolKey pkg.pkgPath nk.1 nk.2 := by
  cases d with
  | funcDecl f =>
    rw [show declStep pkg fn tab (.funcDecl f)
      = f.body.foldl (symbolsInStmt pkg fn) (processFunctionDecl pkg f fn tab) from rfl]
    rw [foldl_lookup_isSome (symbolsInStmt pkg fn) k
      (fun st => ∃ nk ∈ stmtDeclNames st, k = getSymbolKey pkg.pkgPath nk.1 nk.2)
      (fun tab st => symbolsInStmt_lookup pkg fn tab st k) f.body _]
    rw [processFunctionDecl_lookup]
    unfold declNames
    constructor
    · rintro ((h | ⟨nm, hname, hne, hk⟩) | ⟨st, hst, nk, hnk, hk⟩)
      · exact Or.inl h
      · refine Or.inr ⟨(nm.name, "function"), ?_, hk⟩
        rw [List.mem_append]
        exact Or.inl ((mem_nameToList f.name "function" _).mpr ⟨nm, hname, hne, rfl⟩)
      · refine Or.inr ⟨nk, ?_, hk⟩
        rw [List.mem_append]
        exact Or.inr ((mem_foldr_append _ _ _).mpr ⟨st, hst, hnk⟩)
    · rintro (h | ⟨nk, hnk, hk⟩)
      · exact Or.inl (Or.inl h)
      · rw [List.mem_append] at hnk
        rcases hnk with hnk | hnk

        · obtain ⟨nm, hname, hne, hnk2⟩ := (mem_nameToList f.name "function" _).mp hnk
          subst hnk2
          exact Or.inl (Or.inr ⟨nm, hname, hne, hk⟩)
        · obtain ⟨st, hst, hnk2⟩ := (mem_foldr_append _ _ _).mp hnk
          exact Or.inr ⟨st, hst, nk, hnk2, hk⟩
  | genDecl g =>
    rw [show declStep pkg fn tab (.genDecl g) = processGenDecl pkg g fn tab from rfl]
    rw [processGenDecl_lookup]
    rfl

theorem findSymbolsInFile_lookup (pkg : Package) (file : GoFile) (fn : String)
    (tab : SymTab) (k : String) :
    (lookupSym (findSymbolsInFile pkg file fn tab) k).isSome ↔
      (lookupSym tab k).isSome ∨
        ∃ nk ∈ fileDeclNames file, k = getSymbolKey pkg.pkgPath nk.1 nk.2 := by
  unfold findSymbolsInFile
  rw [foldl_lookup_isSome (declStep pkg fn) k
    (fun d => ∃ nk ∈ declNames d, k = getSymbolKey pkg.pkgPath nk.1 nk.2)
    (fun tab d => declStep_lookup pkg fn tab d k) file.decls tab]
  unfold fileDeclNames
  constructor
  · rintro (h | ⟨d, hd, nk, hnk, hk⟩)
    · exact Or.inl h
    · exact Or.inr ⟨nk, (mem_foldr_append _ _ _).mpr ⟨d, hd, hnk⟩, hk⟩
  · rintro (h | ⟨nk, hnk, hk⟩)
    · exact Or.inl h
    · obtain ⟨d, hd, hnk2⟩ := (mem_foldr_append _ _ _).mp hnk
      exact Or.inr ⟨d, hd, nk, hnk2, hk⟩

theorem pkgStep_lookup (pkg : Package) (tab : SymTab) (k : String) :
    (lookupSym (pkgStep tab pkg) k).isSome ↔
      (lookupSym tab k).isSome ∨
        ∃ fl ∈ pkg.syntaxTrees.zip pkg.compiledGoFiles,
          ∃ nk ∈ fileDeclNames fl.1, k = getSymbolKey pkg.pkgPath nk.1 nk.2 := by
  unfold pkgStep
  rw [foldl_lookup_isSome (fileStep pkg) k
    (fun fl => ∃ nk ∈ fileDeclNames fl.1, k = getSymbolKey pkg.pkgPath nk.1 nk.2)
    (fun tab fl => findSymbolsInFile_lookup pkg fl.1 fl.2 tab k)
    (pkg.syntaxTrees.zip pkg.compiledGoFiles) tab]

/-- Claim C4 counterexample input: `func f() { var x ... }` — the variable
`x` is declared only inside the body of `f`. -/
def nestIdent : Ident := { name := "x", pos := cpos, endPos := cpos, use := none }

/-- The nested `var x` declaration. -/
def nestDecl : GenDecl :=
  { tok := .tokVar, specs := [.valueSpec [some nestIdent] [] cpos cpos],
    pos := cpos, endPos := cpos }

/-- The declaring occurrence of `f`. -/
def fIdent : Ident := { name := "f", pos := cpos, endPos := cpos, use := none }

/-- `func f() { var x ... }`. -/
def nestFunc : FuncDecl :=
  { name := some fIdent, sigExprs := [], body := [.declStmt nestDecl],
    pos := cpos, endPos := cpos }

/-- The package of the nested-declaration counterexample. -/
def nestPkg : Package :=
  { pkgPath := "q", name := "q", syntaxTrees := [⟨[.funcDecl nestFunc]⟩],
    compiledGoFiles := ["q.go"], loadErrors := [] }

/-- Claim C4 counterexample: the variable `x`, declared only inside the body
of `f`, nevertheless yields a Symbol — `ast.Inspect` visits `GenDecl`
nodes nested in function bodies, so the extractor does not record
exactly the top-level declarations. -/
theorem c4_counterexample :
    (lookupSym (findSymbols [nestPkg]) "q.x.variable").isSome = true := by
  decide

/-- Claim C4 (amended): the extractor records one Symbol per non-blank
declared name of every function declaration, type spec and value spec
*anywhere* in each retained file's tree — including type, variable and
constant declarations nested inside function bodies, which `ast.Inspect`
also visits.  Exactly the keys derived from those declared (name, kind)
pairs appear in the symbol table. -/
theorem c4_symbols_characterization (pkgs : List Package) (k : String) :
    (lookupSym (findSymbols pkgs) k).isSome ↔
      ∃ pkg ∈ pkgs, ∃ fl ∈ pkg.syntaxTrees.zip pkg.compiledGoFiles,
        ∃ nk ∈ fileDeclNames fl.1, k = getSymbolKey pkg.pkgPath nk.1 nk.2 := by
  unfold findSymbols
  rw [foldl_lookup_isSome pkgStep k
    (fun pkg => ∃ fl ∈ pkg.syntaxTrees.zip pkg.compiledGoFiles,
      ∃ nk ∈ fileDeclNames fl.1, k = getSymbolKey pkg.pkgPath nk.1 nk.2)
    (fun tab pkg => pkgStep_lookup pkg tab k) pkgs []]
  rw [show lookupSym [] k = none from rfl]
  simp

end Gorphanage
